import Mathlib

/-!
Verification of the slicing-tree floorplanner core (`src/lib.rs`, `src/main.rs`).

The development shallowly embeds the Rust data model and operations:
pure value types become Lean structures/inductives, arena-indexed tree
recursion is bounded by an explicit fuel argument (the Rust recursion
terminates exactly on arenas whose child indices exceed the parent index,
in which place the fuel `nodes.length` suffices; on corrupted arenas the
Rust code would diverge or panic, modelled here by `none`), and every
code path that can panic (out-of-range indexing, `unwrap` on `None`,
stack underflow) is modelled with `Option`, `none` standing for a panic.
-/

namespace Slicing

/-- Embeds `Rect` (src/lib.rs): a width/height pair of machine integers,
modelled as unbounded naturals (the program only adds, halves and takes
maxima of the initial dimensions, so no overflow behaviour is relied on). -/
structure Rect where
  width : Nat
  height : Nat
deriving DecidableEq, Repr

/-- Embeds `Cut` (src/lib.rs): a binary cut orientation. -/
inductive Cut
  | Horizontal
  | Vertical
deriving DecidableEq, Repr

/-- Embeds `Cut::opposite`. -/
def Cut.opposite : Cut → Cut
  | Cut.Horizontal => Cut.Vertical
  | Cut.Vertical => Cut.Horizontal

/-- Embeds `Rect::aabb`: the enclosing rectangle of two siblings joined
under a cut orientation. -/
def Rect.aabb (left right : Rect) (cut : Cut) : Rect :=
  match cut with
  | Cut.Vertical => ⟨left.width + right.width, max left.height right.height⟩
  | Cut.Horizontal => ⟨max left.width right.width, left.height + right.height⟩

/-- Embeds `Node` (src/lib.rs): an arena slot of the slicing tree. -/
structure Node where
  cut : Option Cut
  rect : Option Nat
  left : Option Nat
  right : Option Nat
  parent : Option Nat
deriving DecidableEq, Repr

/-- Embeds `SlicingTree` (src/lib.rs): two append-only arenas, rectangles
and nodes, with the root at node index 0. -/
structure SlicingTree where
  data : List Rect
  nodes : List Node
deriving DecidableEq, Repr

/-- Embeds `TreeItem` (src/lib.rs): the NPE alphabet, an operand
(rectangle-arena index) or an operator (cut orientation). -/
inductive TreeItem
  | Rect (idx : Nat)
  | Cut (c : Slicing.Cut)
deriving DecidableEq, Repr

/-- Embeds `TreeItem::is_rect`. -/
def TreeItem.is_rect : TreeItem → Bool
  | TreeItem.Rect _ => true
  | _ => false

/-- Embeds `TreeItem::is_cut`. -/
def TreeItem.is_cut : TreeItem → Bool
  | TreeItem.Cut _ => true
  | _ => false

/-- Embeds `SlicingTree::aabb` (the recursive reference evaluator), with a
fuel argument bounding the recursion depth.  `none` models a panic
(out-of-range arena index, missing child) or divergence on a cyclic arena;
on well-formed trees, whose child indices strictly exceed the parent index,
fuel `nodes.length` always suffices. -/
def SlicingTree.aabb_fuel (t : SlicingTree) : Nat → Nat → Option Rect
  | 0, _ => none
  | fuel + 1, root =>
    match t.nodes[root]? with
    | none => none
    | some node =>
      match node.rect with
      | some r => t.data[r]?
      | none =>
        match node.left, node.right, node.cut with
        | some l, some r, some c =>
          match t.aabb_fuel fuel l, t.aabb_fuel fuel r with
          | some lr, some rr => some (Rect.aabb lr rr c)
          | _, _ => none
        | _, _, _ => none

/-- Embeds `SlicingTree::aabb` applied at any root, instantiating the fuel
with the arena size. -/
def SlicingTree.aabb (t : SlicingTree) (root : Nat) : Option Rect :=
  t.aabb_fuel t.nodes.length root

/-- Embeds `SlicingTree::postorder_rec`, fuelled like `aabb_fuel`.  A leaf
emits its operand; an internal node emits left, right, then its operator
(the Rust pushes the cut only when present, mirrored by the final match). -/
def SlicingTree.postorder_fuel (t : SlicingTree) : Nat → Nat → Option (List TreeItem)
  | 0, _ => none
  | fuel + 1, root =>
    match t.nodes[root]? with
    | none => none
    | some node =>
      match node.rect with
      | some r => some [TreeItem.Rect r]
      | none =>
        match node.left, node.right with
        | some l, some r =>
          match t.postorder_fuel fuel l, t.postorder_fuel fuel r with
          | some ls, some rs =>
            some (ls ++ rs ++ (match node.cut with
              | some c => [TreeItem.Cut c]
              | none => []))
          | _, _ => none
        | _, _ => none

/-- Bool check used by `SlicingTree.WF`: node `i` is a leaf with an
in-range rectangle index, or an internal node with a cut and two children
whose indices are in range and strictly larger than `i` (the append-only
arena discipline of `random_tree`, which pushes children after parents;
this is what makes the node graph a tree rather than a cyclic arena). -/
def node_ok (t : SlicingTree) (i : Nat) : Bool :=
  match t.nodes[i]? with
  | none => true
  | some node =>
    match node.rect with
    | some r => decide (r < t.data.length)
    | none =>
      match node.left, node.right, node.cut with
      | some l, some r, some _ =>
        decide (i < l) && decide (l < t.nodes.length) &&
        decide (i < r) && decide (r < t.nodes.length)
      | _, _, _ => false

/-- Well-formed slicing tree: a nonempty arena in which every node is a
leaf with a valid rectangle index or an internal node with a cut and both
children present (child indices in range and strictly increasing). -/
def SlicingTree.WF (t : SlicingTree) : Prop :=
  0 < t.nodes.length ∧ ∀ i, i < t.nodes.length → node_ok t i = true

instance (t : SlicingTree) : Decidable t.WF := by
  unfold SlicingTree.WF; infer_instance

/-- Embeds `NPE` (src/lib.rs): the postfix token sequence together with
the parallel ballot sequence of running (operand, operator) counts. -/
structure NPE where
  expr : List TreeItem
  ballot : List (Nat × Nat)
deriving DecidableEq, Repr

/-- Helper of `NPE.calculate_ballot`: the loop body for positions `1..`,
each entry copying the previous pair and bumping the first component on an
operand, the second on an operator. -/
def calc_ballot_go (prev : Nat × Nat) : List TreeItem → List (Nat × Nat)
  | [] => []
  | t :: rest =>
    let cur := if t.is_rect then (prev.1 + 1, prev.2) else (prev.1, prev.2 + 1)
    cur :: calc_ballot_go cur rest

/-- Embeds `NPE::calculate_ballot` as a function of the token sequence:
entry 0 is `(0,1)` for an operator first token and `(1,0)` otherwise; each
later entry is the predecessor bumped by the token's kind.  The Rust
panics on an empty sequence (it indexes `expr[0]`); that unreachable case
is modelled by the empty result. -/
def NPE.calculate_ballot (expr : List TreeItem) : List (Nat × Nat) :=
  match expr with
  | [] => []
  | t :: rest =>
    let first := if t.is_cut then ((0 : Nat), (1 : Nat)) else (1, 0)
    first :: calc_ballot_go first rest

/-- Embeds `NPE::new`: package a token sequence with its computed ballot. -/
def NPE.new (expr : List TreeItem) : NPE :=
  ⟨expr, NPE.calculate_ballot expr⟩

/-- Embeds `SlicingTree::postorder`: traverse from the root and build the
NPE (with ballot) from the postfix token list. -/
def SlicingTree.postorder (t : SlicingTree) : Option NPE :=
  (t.postorder_fuel t.nodes.length 0).map NPE.new

/-- Embeds the token loop of `NPE::aabb`: the operand stack is a list with
its head as the top (Rust pushes/pops at the `Vec`'s end).  An operand
pushes its rectangle (`none` if the arena index is out of range, a panic
in Rust); an operator pops right then left (`none` on underflow, a panic
in Rust) and pushes the combined box. -/
def aabb_stack (rects : List Rect) : List TreeItem → List Rect → Option (List Rect)
  | [], st => some st
  | TreeItem.Rect i :: rest, st =>
    match rects[i]? with
    | some r => aabb_stack rects rest (r :: st)
    | none => none
  | TreeItem.Cut c :: rest, st =>
    match st with
    | right :: left :: st' => aabb_stack rects rest (Rect.aabb left right c :: st')
    | _ => none

/-- Embeds `NPE::aabb`: run the stack evaluator over the whole sequence
and return `operands[0]`, the bottom of the stack (`none` models the panic
on an empty final stack). -/
def NPE.aabb (npe : NPE) (rects : List Rect) : Option Rect :=
  match aabb_stack rects npe.expr [] with
  | some st => st.getLast?
  | none => none

/-- Embeds `NPE::count_operators`. -/
def NPE.count_operators (npe : NPE) : Nat :=
  npe.expr.countP TreeItem.is_cut

/-- Embeds `NPE::count_operands`. -/
def NPE.count_operands (npe : NPE) : Nat :=
  npe.expr.countP TreeItem.is_rect

/-- Embeds `NPE::number_operators`: operator tokens among positions `0..k`. -/
def NPE.number_operators (npe : NPE) (k : Nat) : Nat :=
  (npe.expr.take k).countP TreeItem.is_cut

/-- Embeds `NPE::swap` (`Vec::swap`): exchange the tokens at two positions;
`none` models the panic on an out-of-range position. -/
def list_swap (l : List TreeItem) (a b : Nat) : Option (List TreeItem) :=
  match l[a]?, l[b]? with
  | some x, some y => some ((l.set a y).set b x)
  | _, _ => none

/-- Helper of `NPE.m1`: the positions of the operand tokens in order,
mirroring `expr.iter().enumerate().filter_map(...)`, with `i` the running
enumeration index. -/
def op_pos_go : List TreeItem → Nat → List Nat
  | [], _ => []
  | t :: rest, i =>
    if t.is_rect then i :: op_pos_go rest (i + 1) else op_pos_go rest (i + 1)

/-- The list of operand-token positions of a sequence, left to right. -/
def operand_positions (expr : List TreeItem) : List Nat :=
  op_pos_go expr 0

/-- Embeds `NPE::m1`: locate the `a`-th operand occurrence and the next
operand occurrence (`iter.nth(a)` then `iter.next()`) and swap them;
`none` models the `unwrap` panics when the ranks do not exist. -/
def NPE.m1 (npe : NPE) (a : Nat) : Option NPE :=
  match (operand_positions npe.expr)[a]?, (operand_positions npe.expr)[a + 1]? with
  | some a_idx, some b_idx =>
    match list_swap npe.expr a_idx b_idx with
    | some e' => some { npe with expr := e' }
    | none => none
  | _, _ => none

/-- State of the iterator returned by `NPE::chains`: the not-yet-consumed
suffix of the enumerated token sequence plus the captured `start`/`stop`
counters; `idx` is the enumeration index of the first element of `rest`. -/
structure ChainsIter where
  rest : List TreeItem
  idx : Nat
  start : Nat
  stop : Nat
deriving DecidableEq, Repr

/-- One `next()` call of the `chains` iterator body: scan forward,
extending the pending operator run on a cut, emitting the pending
`(start+1, stop+1)` range at an operand that closes a run, resetting the
counters at any other operand, and emitting the trailing run (if any) when
the scan is exhausted — after which every further call returns `none`. -/
def chains_step_go : List TreeItem → Nat → Nat → Nat → Option ((Nat × Nat) × ChainsIter)
  | [], idx, start, stop =>
    if stop - start > 0 then some ((start + 1, stop + 1), ⟨[], idx, 0, 0⟩) else none
  | t :: rest, idx, start, stop =>
    if t.is_cut then chains_step_go rest (idx + 1) start (stop + 1)
    else if stop - start > 0 then some ((start + 1, stop + 1), ⟨rest, idx + 1, idx, idx⟩)
    else chains_step_go rest (idx + 1) idx idx

/-- `next()` on a `chains` iterator state. -/
def chains_step (s : ChainsIter) : Option ((Nat × Nat) × ChainsIter) :=
  chains_step_go s.rest s.idx s.start s.stop

/-- The fresh iterator `NPE::chains` returns for a token sequence. -/
def chains_init (expr : List TreeItem) : ChainsIter :=
  ⟨expr, 0, 0, 0⟩

/-- `Iterator::nth(n)` on a `chains` iterator state: advance `n + 1` times
and return the last yielded item, `none` when the iterator ends first. -/
def chains_nth : ChainsIter → Nat → Option (Nat × Nat)
  | s, n =>
    match chains_step s with
    | none => none
    | some (p, s') =>
      match n with
      | 0 => some p
      | n + 1 => chains_nth s' n

/-- The whole (finite) sequence of ranges the `chains` iterator yields,
written as one recursion over the scanned list: same branch structure as
`chains_step_go`, collecting every emitted range. -/
def chains_go : List TreeItem → Nat → Nat → Nat → List (Nat × Nat)
  | [], _, start, stop =>
    if stop - start > 0 then [(start + 1, stop + 1)] else []
  | t :: rest, i, start, stop =>
    if t.is_cut then chains_go rest (i + 1) start (stop + 1)
    else if stop - start > 0 then (start + 1, stop + 1) :: chains_go rest (i + 1) i i
    else chains_go rest (i + 1) i i

/-- All ranges `NPE::chains` yields for a token sequence, in order. -/
def chains_list (expr : List TreeItem) : List (Nat × Nat) :=
  chains_go expr 0 0 0

/-- Token transform of `NPE::m2`'s loop body: flip an operator to its
opposite orientation, leave an operand unchanged. -/
def flip_tok : TreeItem → TreeItem
  | TreeItem.Cut c => TreeItem.Cut c.opposite
  | t => t

/-- Helper of `NPE.m2`: apply `flip_tok` to the tokens with positions in
`[a, b)` (the slice `expr[a..b]`), leaving all others unchanged; `i` is
the position of the first element of the list being traversed. -/
def flip_range_go : List TreeItem → Nat → Nat → Nat → List TreeItem
  | [], _, _, _ => []
  | t :: rest, i, a, b =>
    (if a ≤ i ∧ i < b then flip_tok t else t) :: flip_range_go rest (i + 1) a b

/-- Flip every operator token of `expr` with position in `[a, b)`. -/
def flip_range (expr : List TreeItem) (a b : Nat) : List TreeItem :=
  flip_range_go expr 0 a b

/-- Embeds `NPE::m2`: fetch the `n`-th chain range from `chains()` and
complement every operator inside it; `none` models the `unwrap` panic when
fewer than `n + 1` chains exist.  The ballot sequence is left untouched. -/
def NPE.m2 (npe : NPE) (n : Nat) : Option NPE :=
  match chains_nth (chains_init npe.expr) n with
  | some (a, b) => some { npe with expr := flip_range npe.expr a b }
  | none => none

/-- Embeds `NPE::satisfies_ballot`: `2 * ballot[b].1 < a`, with `none`
modelling the panic when `b` is out of the ballot's range. -/
def NPE.satisfies_ballot (npe : NPE) (a b : Nat) : Option Bool :=
  (npe.ballot[b]?).map fun p => decide (2 * p.2 < a)

/-- The `windows(2).all(|w| a != b)` check of `NPE::is_normalized`: no two
adjacent elements of the list are structurally identical. -/
def windows_distinct : List TreeItem → Bool
  | x :: y :: rest => decide (x ≠ y) && windows_distinct (y :: rest)
  | _ => true

/-- Embeds `NPE::is_normalized`: run `windows_distinct` over the inclusive
slice `expr[a..=b]`; `none` models the slicing panic when the slice bounds
are out of range (`b ≥ len` or `a > b + 1`). -/
def NPE.is_normalized (expr : List TreeItem) (a b : Nat) : Option Bool :=
  if b < expr.length ∧ a ≤ b + 1 then
    some (windows_distinct ((expr.drop a).take (b + 1 - a)))
  else none

/-- Embeds `NPE::is_swap_normalized`: the ballot test at the boundary,
and — only when it passes, mirroring `&&`'s short circuit — the
adjacent-duplicate check on the inclusive window `[a-1, b+1]`. -/
def NPE.is_swap_normalized (npe : NPE) (a b : Nat) : Option Bool :=
  match npe.satisfies_ballot a b with
  | none => none
  | some sb =>
    if sb then NPE.is_normalized npe.expr (a - 1) (b + 1) else some false

/-- The candidate boundaries of `NPE::m3`: every index `i` whose window
`expr[i], expr[i+1]` holds one operand and one operator in either order
(`expr.windows(2).enumerate().filter_map(...)`). -/
def m3_candidates (expr : List TreeItem) : List Nat :=
  (List.range (expr.length - 1)).filter fun i =>
    match expr[i]?, expr[i + 1]? with
    | some a, some b => (a.is_rect && b.is_cut) || (a.is_cut && b.is_rect)
    | _, _ => false

/-- Embeds the candidate loop of `NPE::m3`, parametrised by the order in
which the shuffled candidates are tried.  For each candidate `i`: if
`is_swap_normalized(i, i+1)` holds, swap; if the post-swap window
`[i-1, i+2]` has adjacent duplicates the swap is undone (modelled by
keeping the original sequence) and the next candidate is tried; otherwise
the ballot is recomputed and the loop breaks.  `none` models a panic
inside the checks (out-of-range ballot or slice access). -/
def NPE.m3_go (npe : NPE) : List Nat → Option NPE
  | [] => some npe
  | i :: rest =>
    match npe.is_swap_normalized i (i + 1) with
    | none => none
    | some false => npe.m3_go rest
    | some true =>
      match list_swap npe.expr i (i + 1) with
      | none => none
      | some e' =>
        match NPE.is_normalized e' (i - 1) (i + 2) with
        | none => none
        | some false => npe.m3_go rest
        | some true => some ⟨e', NPE.calculate_ballot e'⟩

/-- A single random move of `NPE::perturb`, with the randomness made
explicit: the operand rank for M1, the chain rank for M2, and for M3 the
order in which the shuffled candidate boundaries are tried. -/
inductive Move
  | m1 (a : Nat)
  | m2 (n : Nat)
  | m3 (ord : List Nat)
deriving DecidableEq, Repr

/-- Apply one move to an NPE (`none` models a panic inside the move). -/
def applyMove (npe : NPE) : Move → Option NPE
  | Move.m1 a => npe.m1 a
  | Move.m2 n => npe.m2 n
  | Move.m3 ord => npe.m3_go ord

/-- Apply a finite sequence of moves left to right, as `NPE::perturb`'s
iteration loop does. -/
def applyMoves : NPE → List Move → Option NPE
  | npe, [] => some npe
  | npe, mv :: rest =>
    match applyMove npe mv with
    | some npe' => applyMoves npe' rest
    | none => none

/-- The exclusive upper bound `NPE::perturb` passes to `gen_range` when it
draws M1's rank: `num_operators - 1` (src/lib.rs line 349).  `gen_range`
samples uniformly from `{a | a < bound}` and panics when the bound is 0. -/
def perturb_m1_upper (npe : NPE) : Nat :=
  npe.count_operators - 1

/-- Modelled from the spec: a valid M1 operand rank is any `a` with
`0 ≤ a < operand_count − 1` (spec section 4.4, M1), i.e. every adjacent
pair of operand occurrences including the pair containing the last
operand can be selected. -/
def spec_m1_rank_ok (npe : NPE) (a : Nat) : Prop :=
  a + 1 < npe.count_operands

/-- The inner annealing stage of `simulated_annealing` (src/main.rs),
reduced to its loop counters: each pass increments `iters`, increments
`uphill` when the pass accepted an uphill move (the floating-point
Metropolis decision is abstracted into `oracle`, which says whether the
pass starting at iteration count `iters` was an accepted uphill move), and
the loop breaks as soon as `uphill > n` or `iters > 2 * n`.  The value
returned is the number of iterations the stage executed. -/
def inner_stage (n : Nat) (oracle : Nat → Bool) (iters uphill : Nat) : Nat :=
  if h : n < (if oracle iters then uphill + 1 else uphill) ∨ 2 * n < iters + 1 then
    iters + 1
  else
    inner_stage n oracle (iters + 1) (if oracle iters then uphill + 1 else uphill)
termination_by 2 * n + 1 - iters
decreasing_by
  omega

/-! ## Specification-side predicates

These formalise the spec's vocabulary (section 3's invariants, section
4.4's chains) and are what the claims quantify over; the theorems relate
them to the embedded code above. -/

/-- The token at position `i` is an operator. -/
def cut_at (expr : List TreeItem) (i : Nat) : Bool :=
  match expr[i]? with
  | some t => t.is_cut
  | none => false

/-- The token at position `i` is an operand. -/
def rect_at (expr : List TreeItem) (i : Nat) : Bool :=
  match expr[i]? with
  | some t => t.is_rect
  | none => false

/-- The operand index carried by the token at position `i`, if any. -/
def rect_idx_at (expr : List TreeItem) (i : Nat) : Option Nat :=
  match expr[i]? with
  | some (TreeItem.Rect r) => some r
  | _ => none

/-- The skew/ballot invariant (spec section 3): in every prefix, twice the
number of operator tokens is strictly less than the prefix length —
equivalently, every prefix holds strictly more operands than operators. -/
def BallotProp (expr : List TreeItem) : Prop :=
  ∀ k, k < expr.length → 2 * (expr.take (k + 1)).countP TreeItem.is_cut < k + 1

/-- The normalization invariant (spec section 3): no two structurally
identical adjacent tokens anywhere in the sequence. -/
def Normalized (expr : List TreeItem) : Prop :=
  ∀ k, k < expr.length → expr[k]? ≠ expr[k + 1]?

/-- Distinct operand indices at distinct positions: the property every
tree-derived NPE has, because each leaf of a slicing tree references its
own rectangle-arena slot. -/
def OperandsDistinct (expr : List TreeItem) : Prop :=
  ∀ p, p < expr.length → ∀ q, q < expr.length → p ≠ q →
    rect_idx_at expr p = none ∨ rect_idx_at expr p ≠ rect_idx_at expr q

/-- Completeness of a postfix expression: one more operand than operators,
as every postorder traversal of a binary tree produces. -/
def Complete (expr : List TreeItem) : Prop :=
  expr.countP TreeItem.is_rect = expr.countP TreeItem.is_cut + 1

/-- The ballot sequence the spec prescribes: entry `i` is the pair of
(operand, operator) counts of the prefix `0..=i`. -/
def spec_ballot (expr : List TreeItem) : List (Nat × Nat) :=
  (List.range expr.length).map fun i =>
    ((expr.take (i + 1)).countP TreeItem.is_rect, (expr.take (i + 1)).countP TreeItem.is_cut)

/-- The NPE's stored ballot field agrees with the spec's prefix sums. -/
def BallotCorrect (npe : NPE) : Prop :=
  npe.ballot = spec_ballot npe.expr

/-- A valid NPE: both spec invariants (skew/ballot and normalization)
together with the structural facts every tree-derived NPE enjoys and every
move preserves — pairwise-distinct operand indices, completeness, and a
ballot field holding the correct prefix sums. -/
def Valid (npe : NPE) : Prop :=
  BallotProp npe.expr ∧ Normalized npe.expr ∧ OperandsDistinct npe.expr ∧
    Complete npe.expr ∧ BallotCorrect npe

/-- A chain (spec section 4.4, M2): a maximal run of consecutive operator
tokens, given by its half-open position range `[a, b)` — nonempty, within
range, all operators, and bounded by operands or the sequence ends. -/
def IsChain (expr : List TreeItem) (a b : Nat) : Prop :=
  a < b ∧ b ≤ expr.length ∧
    (∀ j, j < b → a ≤ j → cut_at expr j = true) ∧
    (a = 0 ∨ rect_at expr (a - 1) = true) ∧
    (b = expr.length ∨ rect_at expr b = true)

instance (expr : List TreeItem) : Decidable (BallotProp expr) := by
  unfold BallotProp; infer_instance

instance (expr : List TreeItem) : Decidable (Normalized expr) := by
  unfold Normalized; infer_instance

instance (expr : List TreeItem) : Decidable (OperandsDistinct expr) := by
  unfold OperandsDistinct; infer_instance

instance (expr : List TreeItem) : Decidable (Complete expr) := by
  unfold Complete; infer_instance

instance (npe : NPE) : Decidable (BallotCorrect npe) := by
  unfold BallotCorrect; infer_instance

instance (npe : NPE) : Decidable (Valid npe) := by
  unfold Valid; infer_instance

instance (expr : List TreeItem) (a b : Nat) : Decidable (IsChain expr a b) := by
  unfold IsChain; infer_instance

instance (npe : NPE) (a : Nat) : Decidable (spec_m1_rank_ok npe a) := by
  unfold spec_m1_rank_ok; infer_instance

/-- Validity of a single move, relative to the NPE it is applied to: M1
takes a valid operand rank, M2 a valid chain rank, and M3 tries the
candidate boundaries in some shuffled order (a permutation of them). -/
def move_valid (npe : NPE) : Move → Bool
  | Move.m1 a => decide (a + 1 < npe.count_operands)
  | Move.m2 n => decide (n < (chains_list npe.expr).length)
  | Move.m3 ord => decide (List.Perm ord (m3_candidates npe.expr))

/-- Validity of a move sequence: each move is valid for the NPE it is
applied to (the state after the preceding moves). -/
def seq_valid : NPE → List Move → Bool
  | _, [] => true
  | npe, mv :: rest =>
    move_valid npe mv &&
      (match applyMove npe mv with
       | some npe' => seq_valid npe' rest
       | none => true)

/-- The index transposition a swap of positions `a` and `b` realises. -/
def transpose_idx (a b p : Nat) : Nat :=
  if p = a then b else if p = b then a else p

/-- Scan invariant of the `chains` loop, relative to the full sequence:
either the pending run is empty and `start = stop` sits on the operand
just before the scan position `i`, or the pending run occupies positions
`start+1 .. stop` (all operators), bounded on the left by the operand at
`start`, with `i = stop + 1` the scan position. -/
def ChainsInv (expr : List TreeItem) (i start stop : Nat) : Prop :=
  (start = stop ∧ i = start + 1 ∧ rect_at expr start = true) ∨
  (start < stop ∧ i = stop + 1 ∧ rect_at expr start = true ∧
    ∀ j, start < j → j ≤ stop → cut_at expr j = true)

/-- Whether an optional operand index is within a rectangle table of the
given size (vacuously true for an operator or absent token). -/
def operand_in_range (o : Option Nat) (n : Nat) : Bool :=
  match o with
  | none => true
  | some x => decide (x < n)

/-- Every operand token of the sequence references a rectangle inside a
table of the given size. -/
def operands_in_range (expr : List TreeItem) (n : Nat) : Prop :=
  ∀ p : Nat, p < expr.length → operand_in_range (rect_idx_at expr p) n = true

instance (expr : List TreeItem) (n : Nat) : Decidable (operands_in_range expr n) := by
  unfold operands_in_range; infer_instance

/-- A concrete well-formed tree: a 4×2/4×2 horizontal split. -/
def wtree : SlicingTree :=
  ⟨[⟨4, 2⟩, ⟨4, 2⟩],
   [⟨some Cut.Horizontal, none, some 1, some 2, none⟩,
    ⟨none, some 0, none, none, some 0⟩,
    ⟨none, some 1, none, none, some 0⟩]⟩

/-- A normalized, ballot-valid NPE with a repeated operand index. -/
def c2_ex : NPE := NPE.new [TreeItem.Rect 0, TreeItem.Rect 1, TreeItem.Rect 0]

/-- What `m1 1` turns `c2_ex` into. -/
def c2_ex_after : NPE :=
  ⟨[TreeItem.Rect 0, TreeItem.Rect 0, TreeItem.Rect 1], c2_ex.ballot⟩

/-- A small valid NPE (two internal nodes). -/
def c2_w : NPE :=
  NPE.new [TreeItem.Rect 0, TreeItem.Rect 1, TreeItem.Cut Cut.Horizontal,
    TreeItem.Rect 2, TreeItem.Cut Cut.Vertical]

/-- One valid move of each kind, for `c2_w`. -/
def c2_w_moves : List Move := [Move.m1 0, Move.m2 0, Move.m3 [1, 2, 3]]

/-- A sequence whose single chain starts at position 0. -/
def c3_ex : NPE := NPE.new [TreeItem.Cut Cut.Vertical, TreeItem.Rect 0]

/-- A minimal one-cut NPE. -/
def c4_ex : NPE :=
  NPE.new [TreeItem.Rect 0, TreeItem.Rect 1, TreeItem.Cut Cut.Horizontal]

/-- A rectangle table for the one-cut NPE. -/
def c5_rects : List Rect := [⟨2, 2⟩, ⟨3, 3⟩]

/-- A ballot-valid, normalized NPE whose operand surplus exceeds one:
four operands against a single operator. -/
def c10_ex : NPE :=
  NPE.new [TreeItem.Rect 0, TreeItem.Rect 1, TreeItem.Rect 2, TreeItem.Rect 3,
    TreeItem.Cut Cut.Horizontal]

/-! ## Basic token and list lemmas -/

theorem is_cut_eq_not_is_rect (t : TreeItem) : t.is_cut = !t.is_rect := by
  cases t <;> rfl

theorem ne_of_kind {u v : TreeItem} (hu : u.is_rect = true) (hv : v.is_cut = true) :
    u ≠ v := by
  cases u <;> cases v <;> simp_all [TreeItem.is_rect, TreeItem.is_cut]

theorem count_split (l : List TreeItem) :
    l.countP TreeItem.is_rect + l.countP TreeItem.is_cut = l.length := by
  induction l with
  | nil => rfl
  | cons t rest ih =>
    cases t <;> simp [List.countP_cons, TreeItem.is_rect, TreeItem.is_cut] <;> omega

theorem lt_of_getElem?_some {α : Type} {l : List α} {n : Nat} {x : α}
    (h : l[n]? = some x) : n < l.length := by
  by_contra hc
  rw [List.getElem?_eq_none (Nat.le_of_not_lt hc)] at h
  exact Option.noConfusion h

theorem getElem?_some_of_lt {α : Type} (l : List α) {n : Nat} (h : n < l.length) :
    ∃ x, l[n]? = some x :=
  ⟨l[n], List.getElem?_eq_getElem h⟩

theorem cut_at_lt {expr : List TreeItem} {i : Nat} (h : cut_at expr i = true) :
    i < expr.length := by
  unfold cut_at at h
  cases he : expr[i]? with
  | none => rw [he] at h; exact absurd h (by simp)
  | some t => exact lt_of_getElem?_some he

theorem not_rect_of_cut_at {expr : List TreeItem} {i : Nat}
    (h : cut_at expr i = true) : rect_at expr i = false := by
  unfold cut_at at h
  unfold rect_at
  cases he : expr[i]? with
  | none => rfl
  | some t => rw [he] at h; cases t <;> simp_all [TreeItem.is_rect, TreeItem.is_cut]

theorem not_cut_of_rect_at {expr : List TreeItem} {i : Nat}
    (h : rect_at expr i = true) : cut_at expr i = false := by
  unfold rect_at at h
  unfold cut_at
  cases he : expr[i]? with
  | none => rfl
  | some t => rw [he] at h; cases t <;> simp_all [TreeItem.is_rect, TreeItem.is_cut]

/-! ## The computed ballot equals the spec's prefix sums -/

theorem spec_ballot_length (expr : List TreeItem) :
    (spec_ballot expr).length = expr.length := by
  unfold spec_ballot; simp

theorem spec_ballot_getElem? (expr : List TreeItem) {j : Nat} (h : j < expr.length) :
    (spec_ballot expr)[j]? =
      some ((expr.take (j + 1)).countP TreeItem.is_rect,
            (expr.take (j + 1)).countP TreeItem.is_cut) := by
  unfold spec_ballot
  rw [List.getElem?_map, List.getElem?_range h]
  rfl

theorem calc_ballot_go_getElem? (rest : List TreeItem) :
    ∀ (j r c : Nat),
      (calc_ballot_go (r, c) rest)[j]? =
        if j < rest.length then
          some (r + (rest.take (j + 1)).countP TreeItem.is_rect,
                c + (rest.take (j + 1)).countP TreeItem.is_cut)
        else none := by
  induction rest with
  | nil => intro j r c; simp [calc_ballot_go]
  | cons t rest ih =>
    intro j r c
    cases j with
    | zero =>
      cases t <;>
        simp [calc_ballot_go, List.countP_cons, TreeItem.is_rect, TreeItem.is_cut]
    | succ j =>
      cases t with
      | Rect idx =>
        have hred : calc_ballot_go (r, c) (TreeItem.Rect idx :: rest) =
            (r + 1, c) :: calc_ballot_go (r + 1, c) rest := rfl
        rw [hred, List.getElem?_cons_succ, ih j (r + 1) c]
        by_cases hj : j < rest.length
        · simp only [hj, if_true, List.length_cons,
            show j + 1 < rest.length + 1 from by omega, if_true,
            List.take_succ_cons, List.countP_cons]
          simp [TreeItem.is_rect, TreeItem.is_cut]
          omega
        · simp only [hj, if_false, List.length_cons,
            show ¬ (j + 1 < rest.length + 1) from by omega, if_false]
      | Cut c0 =>
        have hred : calc_ballot_go (r, c) (TreeItem.Cut c0 :: rest) =
            (r, c + 1) :: calc_ballot_go (r, c + 1) rest := rfl
        rw [hred, List.getElem?_cons_succ, ih j r (c + 1)]
        by_cases hj : j < rest.length
        · simp only [hj, if_true, List.length_cons,
            show j + 1 < rest.length + 1 from by omega, if_true,
            List.take_succ_cons, List.countP_cons]
          simp [TreeItem.is_rect, TreeItem.is_cut]
          omega
        · simp only [hj, if_false, List.length_cons,
            show ¬ (j + 1 < rest.length + 1) from by omega, if_false]

theorem calculate_ballot_eq_spec (expr : List TreeItem) :
    NPE.calculate_ballot expr = spec_ballot expr := by
  cases expr with
  | nil => rfl
  | cons t rest =>
    have hcb : NPE.calculate_ballot (t :: rest) =
        (if t.is_cut then ((0 : Nat), (1 : Nat)) else (1, 0)) ::
          calc_ballot_go (if t.is_cut then ((0 : Nat), (1 : Nat)) else (1, 0)) rest := rfl
    apply List.ext_getElem?
    intro j
    cases j with
    | zero =>
      rw [spec_ballot_getElem? _ (by simp), hcb]
      cases t <;>
        simp [TreeItem.is_cut, TreeItem.is_rect, List.countP_cons]
    | succ j =>
      rw [hcb]
      simp only [List.getElem?_cons_succ]
      by_cases hj : j < rest.length
      · rw [spec_ballot_getElem? _ (show j + 1 < (t :: rest).length from by
          simp only [List.length_cons]; omega)]
        cases t with
        | Rect idx =>
          show (calc_ballot_go (1, 0) rest)[j]? = _
          rw [calc_ballot_go_getElem? rest j 1 0]
          simp only [hj, if_true, List.take_succ_cons, List.countP_cons]
          simp [TreeItem.is_rect, TreeItem.is_cut]
          omega
        | Cut c0 =>
          show (calc_ballot_go (0, 1) rest)[j]? = _
          rw [calc_ballot_go_getElem? rest j 0 1]
          simp only [hj, if_true, List.take_succ_cons, List.countP_cons]
          simp [TreeItem.is_rect, TreeItem.is_cut]
          omega
      · rw [calc_ballot_go_getElem? rest j _ _]
        simp only [hj, if_false]
        rw [Eq.comm, List.getElem?_eq_none]
        rw [spec_ballot_length]
        simp only [List.length_cons]; omega

theorem ballot_correct_new (expr : List TreeItem) : BallotCorrect (NPE.new expr) := by
  unfold BallotCorrect NPE.new
  exact calculate_ballot_eq_spec expr

theorem first_rect_of_ballot {expr : List TreeItem} (hb : BallotProp expr)
    (h0 : 0 < expr.length) : rect_at expr 0 = true := by
  cases hexpr : expr with
  | nil => subst hexpr; simp at h0
  | cons a rest =>
    subst hexpr
    have h := hb 0 h0
    simp only [Nat.zero_add, List.take_succ_cons, List.take_zero] at h
    unfold rect_at
    simp only [List.getElem?_cons_zero]
    cases a with
    | Rect i => rfl
    | Cut c => simp [List.countP_cons, TreeItem.is_cut] at h

/-! ## Swaps, transpositions and kind-pointwise congruence -/

theorem transpose_idx_invol (a b p : Nat) :
    transpose_idx a b (transpose_idx a b p) = p := by
  unfold transpose_idx
  by_cases hpa : p = a <;> by_cases hpb : p = b <;> by_cases hab : a = b <;>
    simp_all

theorem transpose_idx_inj {a b p q : Nat} (h : p ≠ q) :
    transpose_idx a b p ≠ transpose_idx a b q := by
  intro he
  apply h
  have := congrArg (transpose_idx a b) he
  rwa [transpose_idx_invol, transpose_idx_invol] at this

theorem transpose_idx_lt {a b p n : Nat} (ha : a < n) (hb : b < n) (hp : p < n) :
    transpose_idx a b p < n := by
  unfold transpose_idx
  by_cases hpa : p = a <;> by_cases hpb : p = b <;> simp_all

theorem list_swap_eq {l : List TreeItem} {a b : Nat} {x y : TreeItem}
    (ha : l[a]? = some x) (hb : l[b]? = some y) :
    list_swap l a b = some ((l.set a y).set b x) := by
  unfold list_swap
  rw [ha, hb]

theorem swap_length {l : List TreeItem} (a b : Nat) (x y : TreeItem) :
    ((l.set a y).set b x).length = l.length := by
  simp

theorem swap_getElem? {l : List TreeItem} {a b : Nat} {x y : TreeItem}
    (ha : l[a]? = some x) (hb : l[b]? = some y) (p : Nat) :
    ((l.set a y).set b x)[p]? = l[transpose_idx a b p]? := by
  have hal : a < l.length := lt_of_getElem?_some ha
  have hbl : b < l.length := lt_of_getElem?_some hb
  unfold transpose_idx
  by_cases hpb : p = b
  · subst hpb
    rw [List.getElem?_set_self (by simpa using hbl)]
    by_cases hpa : p = a
    · subst hpa
      rw [if_pos rfl]
      exact ha.symm
    · rw [if_neg hpa, if_pos rfl]
      exact ha.symm
  · rw [List.getElem?_set_ne (fun h => hpb h.symm)]
    by_cases hpa : p = a
    · subst hpa
      rw [List.getElem?_set_self hal, if_pos rfl]
      exact hb.symm
    · rw [List.getElem?_set_ne (fun h => hpa h.symm), if_neg hpa, if_neg hpb]

theorem map_congr_is_cut {o₁ o₂ : Option TreeItem}
    (h : o₁.map TreeItem.is_rect = o₂.map TreeItem.is_rect) :
    o₁.map TreeItem.is_cut = o₂.map TreeItem.is_cut := by
  cases o₁ <;> cases o₂ <;> simp_all [is_cut_eq_not_is_rect]

theorem countP_take_congr (p : TreeItem → Bool) :
    ∀ (e₁ e₂ : List TreeItem), e₁.length = e₂.length →
      (∀ j : Nat, (e₁[j]?).map p = (e₂[j]?).map p) →
      ∀ n, (e₁.take n).countP p = (e₂.take n).countP p := by
  intro e₁
  induction e₁ with
  | nil =>
    intro e₂ hlen _ n
    cases e₂ with
    | nil => rfl
    | cons b t₂ => simp at hlen
  | cons a t₁ ih =>
    intro e₂ hlen hkind n
    cases e₂ with
    | nil => simp at hlen
    | cons b t₂ =>
      cases n with
      | zero => rfl
      | succ n =>
        have h0 := hkind 0
        simp only [List.getElem?_cons_zero, Option.map_some'] at h0
        have htail : ∀ j : Nat, (t₁[j]?).map p = (t₂[j]?).map p := fun j => by
          have := hkind (j + 1)
          simpa using this
        have hlen' : t₁.length = t₂.length := by simpa using hlen
        simp only [List.take_succ_cons, List.countP_cons, ih t₂ hlen' htail n]
        rw [show p a = p b from by injection h0]

theorem countP_congr_of_kind (p : TreeItem → Bool) (e₁ e₂ : List TreeItem)
    (hlen : e₁.length = e₂.length)
    (hkind : ∀ j : Nat, (e₁[j]?).map p = (e₂[j]?).map p) :
    e₁.countP p = e₂.countP p := by
  have := countP_take_congr p e₁ e₂ hlen hkind e₁.length
  rwa [List.take_length, hlen, List.take_length] at this

theorem spec_ballot_congr (e₁ e₂ : List TreeItem) (hlen : e₁.length = e₂.length)
    (hkind : ∀ j : Nat, (e₁[j]?).map TreeItem.is_rect = (e₂[j]?).map TreeItem.is_rect) :
    spec_ballot e₁ = spec_ballot e₂ := by
  unfold spec_ballot
  rw [hlen]
  apply List.map_congr_left
  intro i _
  rw [countP_take_congr TreeItem.is_rect e₁ e₂ hlen hkind (i + 1),
    countP_take_congr TreeItem.is_cut e₁ e₂ hlen (fun j => map_congr_is_cut (hkind j)) (i + 1)]

theorem ballot_prop_congr {e₁ e₂ : List TreeItem} (hlen : e₁.length = e₂.length)
    (hkind : ∀ j : Nat, (e₁[j]?).map TreeItem.is_rect = (e₂[j]?).map TreeItem.is_rect)
    (hb : BallotProp e₁) : BallotProp e₂ := by
  intro k hk
  rw [← countP_take_congr TreeItem.is_cut e₁ e₂ hlen
    (fun j => map_congr_is_cut (hkind j)) (k + 1)]
  exact hb k (hlen ▸ hk)

/-! ## Operand positions and the M1 move -/

theorem op_pos_go_ge : ∀ (l : List TreeItem) (i : Nat), ∀ p ∈ op_pos_go l i, i ≤ p := by
  intro l
  induction l with
  | nil => intro i p hp; simp [op_pos_go] at hp
  | cons t rest ih =>
    intro i p hp
    unfold op_pos_go at hp
    by_cases ht : t.is_rect = true
    · rw [if_pos ht] at hp
      rcases List.mem_cons.mp hp with h | h
      · omega
      · have := ih (i + 1) p h; omega
    · rw [if_neg ht] at hp
      have := ih (i + 1) p hp; omega

theorem op_pos_go_pairwise : ∀ (l : List TreeItem) (i : Nat),
    List.Pairwise (· < ·) (op_pos_go l i) := by
  intro l
  induction l with
  | nil => intro i; simp [op_pos_go]
  | cons t rest ih =>
    intro i
    unfold op_pos_go
    by_cases ht : t.is_rect = true
    · rw [if_pos ht]
      exact List.pairwise_cons.mpr
        ⟨fun p hp => by have := op_pos_go_ge rest (i + 1) p hp; omega, ih (i + 1)⟩
    · rw [if_neg ht]; exact ih (i + 1)

theorem op_pos_go_rect (expr : List TreeItem) :
    ∀ (l : List TreeItem) (i : Nat), l = expr.drop i →
      ∀ p ∈ op_pos_go l i, rect_at expr p = true := by
  intro l
  induction l with
  | nil => intro i _ p hp; simp [op_pos_go] at hp
  | cons t rest ih =>
    intro i hdrop p hp
    have hget : expr[i]? = some t := by
      have h0 : (expr.drop i)[0]? = some t := by rw [← hdrop]; simp
      rwa [List.getElem?_drop, Nat.add_zero] at h0
    have hrest : rest = expr.drop (i + 1) := by
      have h1 : (expr.drop i).drop 1 = expr.drop (i + 1) := by
        rw [List.drop_drop]
      rw [← hdrop] at h1
      simpa using h1
    unfold op_pos_go at hp
    by_cases ht : t.is_rect = true
    · rw [if_pos ht] at hp
      rcases List.mem_cons.mp hp with h | h
      · subst h; unfold rect_at; rw [hget]; exact ht
      · exact ih (i + 1) hrest p h
    · rw [if_neg ht] at hp
      exact ih (i + 1) hrest p hp

theorem op_pos_go_length : ∀ (l : List TreeItem) (i : Nat),
    (op_pos_go l i).length = l.countP TreeItem.is_rect := by
  intro l
  induction l with
  | nil => intro i; simp [op_pos_go]
  | cons t rest ih =>
    intro i
    unfold op_pos_go
    by_cases ht : t.is_rect = true
    · rw [if_pos ht]
      simp [List.countP_cons, ht, ih (i + 1)]
    · rw [if_neg ht]
      simp only [List.countP_cons, ih (i + 1),
        show t.is_rect = false from by simpa using ht]
      simp

theorem operand_positions_rect {expr : List TreeItem} {p : Nat}
    (hp : p ∈ operand_positions expr) : rect_at expr p = true :=
  op_pos_go_rect expr expr 0 (by simp) p hp

theorem operand_positions_length (expr : List TreeItem) :
    (operand_positions expr).length = expr.countP TreeItem.is_rect :=
  op_pos_go_length expr 0

theorem pairwise_lt_getElem? {l : List Nat} (hp : List.Pairwise (· < ·) l)
    {i j x y : Nat} (hij : i < j) (hx : l[i]? = some x) (hy : l[j]? = some y) :
    x < y := by
  have hi : i < l.length := lt_of_getElem?_some hx
  have hj : j < l.length := lt_of_getElem?_some hy
  have := (List.pairwise_iff_getElem.mp hp) i j hi hj hij
  rw [List.getElem?_eq_getElem hi] at hx
  rw [List.getElem?_eq_getElem hj] at hy
  rw [Option.some_inj.mp hx, Option.some_inj.mp hy] at this
  exact this

/-- Extract value-level distinctness from `OperandsDistinct`. -/
theorem operands_distinct_ne {expr : List TreeItem} (hd : OperandsDistinct expr)
    {p q x y : Nat} (hp : expr[p]? = some (TreeItem.Rect x))
    (hq : expr[q]? = some (TreeItem.Rect y)) (hpq : p ≠ q) : x ≠ y := by
  have hpl : p < expr.length := lt_of_getElem?_some hp
  have hql : q < expr.length := lt_of_getElem?_some hq
  have hip : rect_idx_at expr p = some x := by unfold rect_idx_at; rw [hp]
  have hiq : rect_idx_at expr q = some y := by unfold rect_idx_at; rw [hq]
  rcases hd p hpl q hql hpq with h | h
  · rw [hip] at h; exact absurd h (by simp)
  · rw [hip, hiq] at h
    intro he; exact h (by rw [he])

theorem rect_idx_at_swap {l : List TreeItem} {a b : Nat} {x y : TreeItem}
    (ha : l[a]? = some x) (hb : l[b]? = some y) (p : Nat) :
    rect_idx_at ((l.set a y).set b x) p = rect_idx_at l (transpose_idx a b p) := by
  unfold rect_idx_at
  rw [swap_getElem? ha hb p]

theorem operands_distinct_swap {l : List TreeItem} {a b : Nat} {x y : TreeItem}
    (ha : l[a]? = some x) (hb : l[b]? = some y) (hd : OperandsDistinct l) :
    OperandsDistinct ((l.set a y).set b x) := by
  have hal : a < l.length := lt_of_getElem?_some ha
  have hbl : b < l.length := lt_of_getElem?_some hb
  intro p hp q hq hpq
  rw [swap_length] at hp hq
  rw [rect_idx_at_swap ha hb p, rect_idx_at_swap ha hb q]
  exact hd _ (transpose_idx_lt hal hbl hp) _ (transpose_idx_lt hal hbl hq)
    (transpose_idx_inj hpq)

/-- Swapping two operand tokens preserves the token kind at every
position. -/
theorem kind_swap_rects {l : List TreeItem} {a b x y : Nat}
    (ha : l[a]? = some (TreeItem.Rect x)) (hb : l[b]? = some (TreeItem.Rect y)) :
    ∀ j : Nat,
      (((l.set a (TreeItem.Rect y)).set b (TreeItem.Rect x))[j]?).map TreeItem.is_rect =
        (l[j]?).map TreeItem.is_rect := by
  intro j
  rw [swap_getElem? ha hb j]
  unfold transpose_idx
  by_cases hja : j = a
  · subst hja
    rw [if_pos rfl, ha, hb]; rfl
  · by_cases hjb : j = b
    · subst hjb
      rw [if_neg hja, if_pos rfl, ha, hb]; rfl
    · rw [if_neg hja, if_neg hjb]

/-- Swapping two operand tokens (with all operand indices pairwise
distinct) preserves normalization: a pair of operand tokens at distinct
positions always differs, mixed pairs differ by kind, and operator pairs
are untouched by the swap. -/
theorem normalized_swap_rects {l : List TreeItem} {a b x y : Nat}
    (ha : l[a]? = some (TreeItem.Rect x)) (hb : l[b]? = some (TreeItem.Rect y))
    (hn : Normalized l) (hd : OperandsDistinct l) :
    Normalized ((l.set a (TreeItem.Rect y)).set b (TreeItem.Rect x)) := by
  have hal : a < l.length := lt_of_getElem?_some ha
  have hbl : b < l.length := lt_of_getElem?_some hb
  intro k hk
  rw [swap_length] at hk
  rw [swap_getElem? ha hb k, swap_getElem? ha hb (k + 1)]
  have hpq : transpose_idx a b k ≠ transpose_idx a b (k + 1) :=
    transpose_idx_inj (by omega)
  by_cases hk1 : k + 1 < l.length
  · obtain ⟨u, hu⟩ := getElem?_some_of_lt l (transpose_idx_lt hal hbl hk)
    obtain ⟨v, hv⟩ := getElem?_some_of_lt l (transpose_idx_lt hal hbl hk1)
    rw [hu, hv]
    intro hesome
    have huv : u = v := Option.some_inj.mp hesome
    cases u with
    | Rect xu =>
      cases v with
      | Rect xv =>
        exact operands_distinct_ne hd hu hv hpq (by injection huv)
      | Cut cv => exact TreeItem.noConfusion huv
    | Cut cu =>
      cases v with
      | Rect xv => exact TreeItem.noConfusion huv
      | Cut cv =>
        have hka : k ≠ a := by
          intro h; subst h
          rw [show transpose_idx k b k = b from by unfold transpose_idx; rw [if_pos rfl]] at hu
          rw [hb] at hu
          exact TreeItem.noConfusion (Option.some_inj.mp hu)
        have hkb : k ≠ b := by
          intro h; subst h
          rw [show transpose_idx a k k = a from by
            unfold transpose_idx; rw [if_neg hka, if_pos rfl]] at hu
          rw [ha] at hu
          exact TreeItem.noConfusion (Option.some_inj.mp hu)
        have hk1a : k + 1 ≠ a := by
          intro h; subst h
          rw [show transpose_idx (k+1) b (k+1) = b from by
            unfold transpose_idx; rw [if_pos rfl]] at hv
          rw [hb] at hv
          exact TreeItem.noConfusion (Option.some_inj.mp hv)
        have hk1b : k + 1 ≠ b := by
          intro h; subst h
          rw [show transpose_idx a (k + 1) (k + 1) = a from by
            unfold transpose_idx; rw [if_neg hk1a, if_pos rfl]] at hv
          rw [ha] at hv
          exact TreeItem.noConfusion (Option.some_inj.mp hv)
        have hpk : transpose_idx a b k = k := by
          unfold transpose_idx
          rw [if_neg hka, if_neg hkb]
        have hqk : transpose_idx a b (k + 1) = k + 1 := by
          unfold transpose_idx
          rw [if_neg hk1a, if_neg hk1b]
        rw [hpk] at hu
        rw [hqk] at hv
        exact hn k hk (by rw [hu, hv, huv])
  · have hq : transpose_idx a b (k + 1) = k + 1 := by
      unfold transpose_idx
      rw [if_neg (by omega), if_neg (by omega)]
    rw [hq]
    rw [show (l[k + 1]? : Option TreeItem) = none from List.getElem?_eq_none (by omega)]
    obtain ⟨u, hu⟩ := getElem?_some_of_lt l (transpose_idx_lt hal hbl hk)
    rw [hu]; simp

theorem rect_at_exists {expr : List TreeItem} {p : Nat} (h : rect_at expr p = true) :
    ∃ x, expr[p]? = some (TreeItem.Rect x) := by
  unfold rect_at at h
  cases he : expr[p]? with
  | none => rw [he] at h; exact absurd h (by simp)
  | some t =>
    rw [he] at h
    cases t with
    | Rect x => exact ⟨x, rfl⟩
    | Cut c => simp [TreeItem.is_rect] at h

theorem cut_at_exists {expr : List TreeItem} {p : Nat} (h : cut_at expr p = true) :
    ∃ c, expr[p]? = some (TreeItem.Cut c) := by
  unfold cut_at at h
  cases he : expr[p]? with
  | none => rw [he] at h; exact absurd h (by simp)
  | some t =>
    rw [he] at h
    cases t with
    | Rect x => simp [TreeItem.is_cut] at h
    | Cut c => exact ⟨c, rfl⟩

/-- Unfold a successful `m1`: the swapped operand positions, their tokens,
their order, and the exact result. -/
theorem m1_eq {npe : NPE} {a : Nat} (hrank : a + 1 < npe.count_operands) :
    ∃ a_idx b_idx x y,
      npe.expr[a_idx]? = some (TreeItem.Rect x) ∧
      npe.expr[b_idx]? = some (TreeItem.Rect y) ∧ a_idx < b_idx ∧
      npe.m1 a = some ⟨(npe.expr.set a_idx (TreeItem.Rect y)).set b_idx (TreeItem.Rect x),
        npe.ballot⟩ := by
  have hlen : a + 1 < (operand_positions npe.expr).length := by
    rw [operand_positions_length]; exact hrank
  obtain ⟨a_idx, hai⟩ := getElem?_some_of_lt (operand_positions npe.expr)
    (show a < (operand_positions npe.expr).length from by omega)
  obtain ⟨b_idx, hbi⟩ := getElem?_some_of_lt (operand_positions npe.expr) hlen
  obtain ⟨x, hx⟩ := rect_at_exists (operand_positions_rect (List.getElem?_mem hai))
  obtain ⟨y, hy⟩ := rect_at_exists (operand_positions_rect (List.getElem?_mem hbi))
  refine ⟨a_idx, b_idx, x, y, hx, hy,
    pairwise_lt_getElem? (op_pos_go_pairwise _ 0) (by omega) hai hbi, ?_⟩
  unfold NPE.m1
  rw [hai, hbi]
  show (match list_swap npe.expr a_idx b_idx with
    | some e' => some { npe with expr := e' }
    | none => none) = _
  rw [list_swap_eq hx hy]

/-- Invert any successful `m1`: whatever the rank, the result is a swap of
two operand tokens with the ballot untouched. -/
theorem m1_inv {npe npe' : NPE} {a : Nat} (h : npe.m1 a = some npe') :
    ∃ a_idx b_idx x y,
      npe.expr[a_idx]? = some (TreeItem.Rect x) ∧
      npe.expr[b_idx]? = some (TreeItem.Rect y) ∧
      npe'.expr = (npe.expr.set a_idx (TreeItem.Rect y)).set b_idx (TreeItem.Rect x) ∧
      npe'.ballot = npe.ballot := by
  unfold NPE.m1 at h
  cases hai : (operand_positions npe.expr)[a]? with
  | none => rw [hai] at h; exact Option.noConfusion h
  | some a_idx =>
    cases hbi : (operand_positions npe.expr)[a + 1]? with
    | none => rw [hai, hbi] at h; exact Option.noConfusion h
    | some b_idx =>
      rw [hai, hbi] at h
      obtain ⟨x, hx⟩ := rect_at_exists (operand_positions_rect (List.getElem?_mem hai))
      obtain ⟨y, hy⟩ := rect_at_exists (operand_positions_rect (List.getElem?_mem hbi))
      have h' : (match list_swap npe.expr a_idx b_idx with
          | some e' => some { npe with expr := e' }
          | none => none) = some npe' := h
      rw [list_swap_eq hx hy] at h'
      refine ⟨a_idx, b_idx, x, y, hx, hy, ?_, ?_⟩
      · rw [← Option.some_inj.mp h']
      · rw [← Option.some_inj.mp h']

/-- A swap of two operand tokens preserves the correctness of the stored
ballot field (the token kinds at every position are untouched). -/
theorem ballot_correct_swap_rects {npe npe' : NPE} {a_idx b_idx x y : Nat}
    (hx : npe.expr[a_idx]? = some (TreeItem.Rect x))
    (hy : npe.expr[b_idx]? = some (TreeItem.Rect y))
    (he : npe'.expr = (npe.expr.set a_idx (TreeItem.Rect y)).set b_idx (TreeItem.Rect x))
    (hbal : npe'.ballot = npe.ballot) (hbc : BallotCorrect npe) :
    BallotCorrect npe' := by
  unfold BallotCorrect at hbc ⊢
  rw [hbal, hbc, he]
  exact (spec_ballot_congr _ _ (swap_length _ _ _ _) (kind_swap_rects hx hy)).symm

/-- M1 with a valid rank succeeds on a valid NPE and preserves the whole
validity bundle, the ballot, and the token counts. -/
theorem m1_preserves_valid {npe : NPE} {a : Nat} (hv : Valid npe)
    (hrank : a + 1 < npe.count_operands) :
    ∃ npe', npe.m1 a = some npe' ∧ Valid npe' ∧
      npe'.expr.length = npe.expr.length ∧ npe'.ballot = npe.ballot ∧
      npe'.count_operands = npe.count_operands ∧
      npe'.count_operators = npe.count_operators := by
  obtain ⟨a_idx, b_idx, x, y, hx, hy, hab, hm⟩ := m1_eq hrank
  obtain ⟨hb, hn, hd, hc, hbc⟩ := hv
  have hkind := kind_swap_rects hx hy
  have hlen : ((npe.expr.set a_idx (TreeItem.Rect y)).set b_idx (TreeItem.Rect x)).length =
      npe.expr.length := swap_length _ _ _ _
  have hrects : ((npe.expr.set a_idx (TreeItem.Rect y)).set b_idx
      (TreeItem.Rect x)).countP TreeItem.is_rect = npe.expr.countP TreeItem.is_rect :=
    countP_congr_of_kind _ _ _ hlen hkind
  have hcuts : ((npe.expr.set a_idx (TreeItem.Rect y)).set b_idx
      (TreeItem.Rect x)).countP TreeItem.is_cut = npe.expr.countP TreeItem.is_cut :=
    countP_congr_of_kind _ _ _ hlen (fun j => map_congr_is_cut (hkind j))
  refine ⟨_, hm, ⟨?_, ?_, ?_, ?_, ?_⟩, hlen, rfl, hrects, hcuts⟩
  · exact ballot_prop_congr hlen.symm (fun j => (hkind j).symm) hb
  · exact normalized_swap_rects hx hy hn hd
  · exact operands_distinct_swap hx hy hd
  · unfold Complete at hc ⊢
    rw [hrects, hcuts]; exact hc
  · exact ballot_correct_swap_rects hx hy rfl rfl hbc

/-! ## The chains iterator: stepwise/list agreement and correctness -/

theorem is_rect_of_not_cut {t : TreeItem} (h : t.is_cut = false) : t.is_rect = true := by
  cases t with
  | Rect i => rfl
  | Cut c => simp [TreeItem.is_cut] at h

theorem cut_rect_conflict {expr : List TreeItem} {j : Nat}
    (hc : cut_at expr j = true) (hr : rect_at expr j = true) : False := by
  rw [not_rect_of_cut_at hc] at hr
  exact Bool.noConfusion hr

theorem drop_cons_facts {α : Type} {expr rest : List α} {t : α} {i : Nat}
    (h : t :: rest = expr.drop i) : expr[i]? = some t ∧ rest = expr.drop (i + 1) := by
  constructor
  · have h0 : (expr.drop i)[0]? = some t := by rw [← h]; simp
    rwa [List.getElem?_drop, Nat.add_zero] at h0
  · have h1 : (expr.drop i).drop 1 = expr.drop (i + 1) := by rw [List.drop_drop]
    rw [← h] at h1
    simpa using h1

theorem chains_go_nil (i start stop : Nat) :
    chains_go [] i start stop =
      if stop - start > 0 then [(start + 1, stop + 1)] else [] := rfl

theorem chains_go_cons (t : TreeItem) (rest : List TreeItem) (i start stop : Nat) :
    chains_go (t :: rest) i start stop =
      if t.is_cut then chains_go rest (i + 1) start (stop + 1)
      else if stop - start > 0 then (start + 1, stop + 1) :: chains_go rest (i + 1) i i
      else chains_go rest (i + 1) i i := rfl

theorem chains_step_go_nil (i start stop : Nat) :
    chains_step_go [] i start stop =
      if stop - start > 0 then some ((start + 1, stop + 1), ⟨[], i, 0, 0⟩) else none := rfl

theorem chains_step_go_cons (t : TreeItem) (rest : List TreeItem) (i start stop : Nat) :
    chains_step_go (t :: rest) i start stop =
      if t.is_cut then chains_step_go rest (i + 1) start (stop + 1)
      else if stop - start > 0 then
        some ((start + 1, stop + 1), ⟨rest, i + 1, i, i⟩)
      else chains_step_go rest (i + 1) i i := rfl

theorem chains_go_eq_step : ∀ (l : List TreeItem) (i start stop : Nat),
    chains_go l i start stop =
      match chains_step_go l i start stop with
      | none => []
      | some (p, s) => p :: chains_go s.rest s.idx s.start s.stop := by
  intro l
  induction l with
  | nil =>
    intro i start stop
    rw [chains_go_nil, chains_step_go_nil]
    by_cases h : stop - start > 0
    · rw [if_pos h, if_pos h]
      simp [chains_go_nil]
    · rw [if_neg h, if_neg h]
  | cons t rest ih =>
    intro i start stop
    rw [chains_go_cons, chains_step_go_cons]
    by_cases ht : t.is_cut = true
    · rw [if_pos ht, if_pos ht]
      exact ih (i + 1) start (stop + 1)
    · rw [if_neg ht, if_neg ht]
      by_cases h : stop - start > 0
      · rw [if_pos h, if_pos h]
      · rw [if_neg h, if_neg h]
        exact ih (i + 1) i i

theorem chains_nth_eq_getElem? : ∀ (n : Nat) (l : List TreeItem) (i start stop : Nat),
    chains_nth ⟨l, i, start, stop⟩ n = (chains_go l i start stop)[n]? := by
  intro n
  induction n with
  | zero =>
    intro l i start stop
    rw [chains_go_eq_step]
    unfold chains_nth chains_step
    cases hs : chains_step_go l i start stop with
    | none => simp
    | some ps => cases ps with | mk p s => simp
  | succ n ih =>
    intro l i start stop
    rw [chains_go_eq_step]
    unfold chains_nth chains_step
    cases hs : chains_step_go l i start stop with
    | none => simp
    | some ps =>
      cases ps with
      | mk p s =>
        show chains_nth s n = _
        rw [show s = (⟨s.rest, s.idx, s.start, s.stop⟩ : ChainsIter) from rfl]
        rw [ih s.rest s.idx s.start s.stop]
        simp

theorem chains_go_spec (expr : List TreeItem) :
    ∀ (l : List TreeItem) (i start stop : Nat),
      l = expr.drop i → ChainsInv expr i start stop →
      (∀ a b : Nat, ((a, b) ∈ chains_go l i start stop ↔ IsChain expr a b ∧ start < a)) ∧
      List.Pairwise (fun p q : Nat × Nat => p.1 < q.1) (chains_go l i start stop) := by
  intro l
  induction l with
  | nil =>
    intro i start stop hdrop hinv
    have hlen : expr.length ≤ i := List.drop_eq_nil_iff.mp hdrop.symm
    rcases hinv with ⟨hss, hi, _⟩ | ⟨hss, hi, hrs, hcuts⟩
    · have hz : stop - start = 0 := by omega
      rw [chains_go_nil, if_neg (by omega)]
      refine ⟨fun a b => ⟨fun hmem => absurd hmem (List.not_mem_nil _), ?_⟩, List.Pairwise.nil⟩
      rintro ⟨hchain, hstart⟩
      obtain ⟨hab, hble, hcut, _, _⟩ := hchain
      have hca : cut_at expr a = true := hcut a hab (Nat.le_refl a)
      have : a < expr.length := cut_at_lt hca
      omega
    · rw [chains_go_nil, if_pos (by omega)]
      have hstoplt : stop < expr.length := cut_at_lt (hcuts stop hss (Nat.le_refl stop))
      have hilen : i = expr.length := by omega
      constructor
      · intro a b
        constructor
        · intro hmem
          have hpe : (a, b) = (start + 1, stop + 1) := by
            simpa using hmem
          have ha : a = start + 1 := congrArg Prod.fst hpe
          have hb : b = stop + 1 := congrArg Prod.snd hpe
          subst ha; subst hb
          refine ⟨⟨by omega, by omega, ?_, ?_, ?_⟩, by omega⟩
          · intro j hj1 hj2
            exact hcuts j (by omega) (by omega)
          · right; simpa using hrs
          · left; omega
        · rintro ⟨hchain, hstart⟩
          obtain ⟨hab, hble, hcut, hleft, hright⟩ := hchain
          have hca : cut_at expr a = true := hcut a hab (Nat.le_refl a)
          have halt : a < expr.length := cut_at_lt hca
          have hasle : a ≤ stop := by omega
          have ha1 : a = start + 1 := by
            by_contra hne
            have ha2 : start + 1 < a := by omega
            rcases hleft with h0 | hrl
            · omega
            · exact cut_rect_conflict (hcuts (a - 1) (by omega) (by omega)) hrl
          have hb1 : b = stop + 1 := by
            rcases Nat.lt_or_ge b (stop + 1) with hblt | hbge
            · exfalso
              rcases hright with hbl | hrb
              · omega
              · exact cut_rect_conflict (hcuts b (by omega) (by omega)) hrb
            · omega
          subst ha1; subst hb1
          simp
      · simp
  | cons t rest ih =>
    intro i start stop hdrop hinv
    obtain ⟨hget, hrest⟩ := drop_cons_facts hdrop
    by_cases ht : t.is_cut = true
    · -- operator token: extend the pending run
      have hcuti : cut_at expr i = true := by unfold cut_at; rw [hget]; exact ht
      have hstep : chains_go (t :: rest) i start stop =
          chains_go rest (i + 1) start (stop + 1) := by
        rw [chains_go_cons, if_pos ht]
      rw [hstep]
      apply ih (i + 1) start (stop + 1) hrest
      rcases hinv with ⟨hss, hi, hrs⟩ | ⟨hss, hi, hrs, hcuts⟩
      · right
        refine ⟨by omega, by omega, hrs, ?_⟩
        intro j hj1 hj2
        have : j = stop + 1 := by omega
        subst this
        rw [show stop + 1 = i from by omega]
        exact hcuti
      · right
        refine ⟨by omega, by omega, hrs, ?_⟩
        intro j hj1 hj2
        rcases Nat.lt_or_ge j (stop + 1) with hlt | hge
        · exact hcuts j hj1 (by omega)
        · rw [show j = i from by omega]
          exact hcuti
    · -- operand token
      have hrecti : rect_at expr i = true := by
        unfold rect_at; rw [hget]
        exact is_rect_of_not_cut (by simpa using ht)
      rcases hinv with ⟨hss, hi, hrs⟩ | ⟨hss, hi, hrs, hcuts⟩
      · -- no pending run: reset
        have hstep : chains_go (t :: rest) i start stop =
            chains_go rest (i + 1) i i := by
          rw [chains_go_cons, if_neg ht, if_neg (by omega)]
        rw [hstep]
        obtain ⟨hmem, hpair⟩ := ih (i + 1) i i hrest (Or.inl ⟨rfl, rfl, hrecti⟩)
        refine ⟨fun a b => ?_, hpair⟩
        rw [hmem a b]
        constructor
        · rintro ⟨hchain, hlt⟩; exact ⟨hchain, by omega⟩
        · rintro ⟨hchain, hlt⟩
          refine ⟨hchain, ?_⟩
          have hca : cut_at expr a = true := hchain.2.2.1 a hchain.1 (Nat.le_refl a)
          have hane : a ≠ i := fun h => cut_rect_conflict (h ▸ hca) hrecti
          omega
      · -- pending run closed by this operand: emit it
        have hstep : chains_go (t :: rest) i start stop =
            (start + 1, stop + 1) :: chains_go rest (i + 1) i i := by
          rw [chains_go_cons, if_neg ht, if_pos (by omega)]
        rw [hstep]
        obtain ⟨hmem, hpair⟩ := ih (i + 1) i i hrest (Or.inl ⟨rfl, rfl, hrecti⟩)
        have hilt : i < expr.length := lt_of_getElem?_some hget
        have hchain_p : IsChain expr (start + 1) (stop + 1) := by
          refine ⟨by omega, by omega, ?_, ?_, ?_⟩
          · intro j hj1 hj2
            exact hcuts j (by omega) (by omega)
          · right; simpa using hrs
          · right
            rw [show stop + 1 = i from by omega]
            exact hrecti
        constructor
        · intro a b
          constructor
          · intro hmemc
            rcases List.mem_cons.mp hmemc with hpe | htl
            · have ha : a = start + 1 := congrArg Prod.fst hpe
              have hb : b = stop + 1 := congrArg Prod.snd hpe
              subst ha; subst hb
              exact ⟨hchain_p, by omega⟩
            · obtain ⟨hchain, hlt⟩ := (hmem a b).mp htl
              exact ⟨hchain, by omega⟩
          · rintro ⟨hchain, hstart⟩
            obtain ⟨hab, hble, hcut, hleft, hright⟩ := hchain
            rcases Nat.lt_or_ge i a with hgt | hle
            · exact List.mem_cons_of_mem _ ((hmem a b).mpr
                ⟨⟨hab, hble, hcut, hleft, hright⟩, hgt⟩)
            · -- the chain must be exactly the emitted one
              have hca : cut_at expr a = true := hcut a hab (Nat.le_refl a)
              have hane : a ≠ i := fun h => cut_rect_conflict (h ▸ hca) hrecti
              have hasle : a ≤ stop := by omega
              have ha1 : a = start + 1 := by
                by_contra hne
                have ha2 : start + 1 < a := by omega
                rcases hleft with h0 | hrl
                · omega
                · exact cut_rect_conflict (hcuts (a - 1) (by omega) (by omega)) hrl
              have hb1 : b = stop + 1 := by
                rcases Nat.lt_or_ge b (stop + 1) with hblt | hbge
                · exfalso
                  rcases hright with hbl | hrb
                  · have : b < expr.length := by omega
                    omega
                  · exact cut_rect_conflict (hcuts b (by omega) (by omega)) hrb
                · rcases Nat.lt_or_ge (stop + 1) b with hblt2 | hbge2
                  · exfalso
                    have : cut_at expr i = true := hcut i (by omega) (by omega)
                    exact cut_rect_conflict this hrecti
                  · omega
              subst ha1; subst hb1
              exact List.mem_cons_self _ _
        · refine List.pairwise_cons.mpr ⟨?_, hpair⟩
          intro q hq
          obtain ⟨_, hlt⟩ := (hmem q.1 q.2).mp (by simpa using hq)
          show start + 1 < q.1
          omega

/-- For a sequence starting with an operand (as the ballot invariant
guarantees), `chains` enumerates exactly the chains, in left-to-right
order. -/
theorem chains_list_spec {expr : List TreeItem} (h0 : rect_at expr 0 = true) :
    (∀ a b : Nat, ((a, b) ∈ chains_list expr ↔ IsChain expr a b)) ∧
    List.Pairwise (fun p q : Nat × Nat => p.1 < q.1) (chains_list expr) := by
  obtain ⟨x, hx⟩ := rect_at_exists h0
  cases expr with
  | nil => simp at hx
  | cons t rest =>
    have htr : t.is_rect = true := by
      unfold rect_at at h0
      simpa using h0
    have hstep : chains_list (t :: rest) = chains_go rest 1 0 0 := by
      unfold chains_list
      rw [chains_go_cons,
        if_neg (show ¬ t.is_cut = true from by rw [is_cut_eq_not_is_rect, htr]; simp),
        if_neg (by omega)]
    obtain ⟨hmem, hpair⟩ :=
      chains_go_spec (t :: rest) rest 1 0 0 rfl (Or.inl ⟨rfl, rfl, h0⟩)
    rw [hstep]
    refine ⟨fun a b => ?_, hpair⟩
    rw [hmem a b]
    constructor
    · rintro ⟨hchain, _⟩; exact hchain
    · intro hchain
      refine ⟨hchain, ?_⟩
      have hca : cut_at (t :: rest) a = true := hchain.2.2.1 a hchain.1 (Nat.le_refl a)
      rcases Nat.eq_zero_or_pos a with h | h
      · exact absurd h0 (by rw [← h]; exact fun hr => cut_rect_conflict hca hr)
      · exact h

theorem chains_nth_init (expr : List TreeItem) (n : Nat) :
    chains_nth (chains_init expr) n = (chains_list expr)[n]? :=
  chains_nth_eq_getElem? n expr 0 0 0

/-! ## The M2 move -/

theorem flip_tok_kind (t : TreeItem) : (flip_tok t).is_rect = t.is_rect := by
  cases t <;> rfl

theorem flip_tok_inj {u v : TreeItem} (h : flip_tok u = flip_tok v) : u = v := by
  cases u with
  | Rect x =>
    cases v with
    | Rect y => exact h
    | Cut c => exact TreeItem.noConfusion h
  | Cut c =>
    cases v with
    | Rect y => exact TreeItem.noConfusion h
    | Cut c' =>
      have := TreeItem.Cut.injEq .. ▸ h
      cases c <;> cases c' <;> simp_all [flip_tok, Cut.opposite]

theorem flip_range_go_length : ∀ (l : List TreeItem) (i a b : Nat),
    (flip_range_go l i a b).length = l.length := by
  intro l
  induction l with
  | nil => intro i a b; rfl
  | cons t rest ih => intro i a b; simp [flip_range_go, ih]

theorem flip_range_go_getElem? : ∀ (l : List TreeItem) (i a b j : Nat),
    (flip_range_go l i a b)[j]? =
      (l[j]?).map (fun t => if a ≤ i + j ∧ i + j < b then flip_tok t else t) := by
  intro l
  induction l with
  | nil => intro i a b j; simp [flip_range_go]
  | cons t rest ih =>
    intro i a b j
    cases j with
    | zero =>
      show (flip_range_go (t :: rest) i a b)[0]? = _
      unfold flip_range_go
      simp
    | succ j =>
      have hred : flip_range_go (t :: rest) i a b =
          (if a ≤ i ∧ i < b then flip_tok t else t) :: flip_range_go rest (i + 1) a b := rfl
      rw [hred, List.getElem?_cons_succ, ih (i + 1) a b j]
      simp only [List.getElem?_cons_succ]
      have harith : i + 1 + j = i + (j + 1) := by omega
      rw [harith]

theorem flip_range_length (expr : List TreeItem) (a b : Nat) :
    (flip_range expr a b).length = expr.length :=
  flip_range_go_length expr 0 a b

theorem flip_range_getElem? (expr : List TreeItem) (a b j : Nat) :
    (flip_range expr a b)[j]? =
      (expr[j]?).map (fun t => if a ≤ j ∧ j < b then flip_tok t else t) := by
  have := flip_range_go_getElem? expr 0 a b j
  simpa using this

theorem flip_range_kind (expr : List TreeItem) (a b : Nat) :
    ∀ j : Nat, ((flip_range expr a b)[j]?).map TreeItem.is_rect =
      (expr[j]?).map TreeItem.is_rect := by
  intro j
  rw [flip_range_getElem?]
  cases expr[j]? with
  | none => rfl
  | some t =>
    by_cases h : a ≤ j ∧ j < b
    · simp [h, flip_tok_kind]
    · simp [h]

theorem flip_range_outside (expr : List TreeItem) {a b j : Nat}
    (h : j < a ∨ b ≤ j) : (flip_range expr a b)[j]? = expr[j]? := by
  rw [flip_range_getElem?]
  cases expr[j]? with
  | none => rfl
  | some t =>
    rw [Option.map_some']
    rw [if_neg (by omega)]

theorem flip_range_inside (expr : List TreeItem) {a b j : Nat}
    (h1 : a ≤ j) (h2 : j < b) :
    (flip_range expr a b)[j]? = (expr[j]?).map flip_tok := by
  rw [flip_range_getElem?]
  cases expr[j]? with
  | none => rfl
  | some t =>
    rw [Option.map_some', Option.map_some']
    rw [if_pos ⟨h1, h2⟩]

theorem flip_range_rect_idx (expr : List TreeItem) (a b : Nat) (j : Nat) :
    rect_idx_at (flip_range expr a b) j = rect_idx_at expr j := by
  unfold rect_idx_at
  rw [flip_range_getElem?]
  cases expr[j]? with
  | none => rfl
  | some t =>
    cases t with
    | Rect x =>
      by_cases h : a ≤ j ∧ j < b
      · rw [Option.map_some', if_pos h]; rfl
      · rw [Option.map_some', if_neg h]
    | Cut c =>
      by_cases h : a ≤ j ∧ j < b
      · rw [Option.map_some', if_pos h]; rfl
      · rw [Option.map_some', if_neg h]

/-- Unfold a successful `m2`. -/
theorem m2_eq {npe : NPE} {n a b : Nat}
    (h : chains_nth (chains_init npe.expr) n = some (a, b)) :
    npe.m2 n = some ⟨flip_range npe.expr a b, npe.ballot⟩ := by
  unfold NPE.m2
  rw [h]

/-- Flipping the operators of a chain preserves normalization: flipped
pairs stay distinct because `flip_tok` is injective, and the chain's
boundary tokens are operands while its inner tokens are operators. -/
theorem normalized_flip_chain {expr : List TreeItem} {a b : Nat}
    (hchain : IsChain expr a b) (hn : Normalized expr) :
    Normalized (flip_range expr a b) := by
  obtain ⟨hab, hble, hcut, hleft, hright⟩ := hchain
  intro k hk
  rw [flip_range_length] at hk
  by_cases hk1 : k + 1 < expr.length
  · obtain ⟨u, hu⟩ := getElem?_some_of_lt expr hk
    obtain ⟨v, hv⟩ := getElem?_some_of_lt expr hk1
    by_cases hkin : a ≤ k ∧ k < b
    · by_cases hk1in : a ≤ k + 1 ∧ k + 1 < b
      · -- both inside: flipped pair of distinct tokens stays distinct
        rw [flip_range_inside expr hkin.1 hkin.2,
          flip_range_inside expr hk1in.1 hk1in.2, hu, hv]
        simp only [Option.map_some']
        intro hsome
        exact hn k hk (by rw [hu, hv, flip_tok_inj (Option.some_inj.mp hsome)])
      · -- k inside, k+1 is the right boundary operand
        have hb1 : k + 1 = b := by omega
        have hrb : rect_at expr (k + 1) = true := by
          rcases hright with h | h
          · omega
          · rwa [hb1]
        have hck : cut_at expr k = true := hcut k hkin.2 hkin.1
        obtain ⟨c, hc⟩ := cut_at_exists hck
        obtain ⟨x, hx⟩ := rect_at_exists hrb
        rw [flip_range_inside expr hkin.1 hkin.2,
          flip_range_outside expr (Or.inr (by omega)), hc, hx]
        simp [flip_tok]
    · by_cases hk1in : a ≤ k + 1 ∧ k + 1 < b
      · -- k+1 inside, k is the left boundary operand
        have ha1 : a = k + 1 := by omega
        have hlb : rect_at expr k = true := by
          rcases hleft with h | h
          · omega
          · have : a - 1 = k := by omega
            rwa [this] at h
        have hck1 : cut_at expr (k + 1) = true := hcut (k + 1) hk1in.2 hk1in.1
        obtain ⟨c, hc⟩ := cut_at_exists hck1
        obtain ⟨x, hx⟩ := rect_at_exists hlb
        rw [flip_range_inside expr hk1in.1 hk1in.2,
          flip_range_outside expr (Or.inl (by omega)), hc, hx]
        simp [flip_tok]
      · -- both outside: untouched
        rw [flip_range_outside expr (by omega), flip_range_outside expr (by omega)]
        exact hn k hk
  · rw [show ((flip_range expr a b)[k + 1]? : Option TreeItem) = none from by
      apply List.getElem?_eq_none
      rw [flip_range_length]; omega]
    obtain ⟨u, hu⟩ := getElem?_some_of_lt (flip_range expr a b)
      (show k < (flip_range expr a b).length from by rw [flip_range_length]; exact hk)
    rw [hu]; simp

/-- M2 with a valid chain rank succeeds on a valid NPE and preserves the
validity bundle, the ballot, and the token counts. -/
theorem m2_preserves_valid {npe : NPE} {n : Nat} (hv : Valid npe)
    (hrank : n < (chains_list npe.expr).length) :
    ∃ npe', npe.m2 n = some npe' ∧ Valid npe' ∧
      npe'.expr.length = npe.expr.length ∧ npe'.ballot = npe.ballot ∧
      npe'.count_operands = npe.count_operands ∧
      npe'.count_operators = npe.count_operators := by
  obtain ⟨hb, hn, hd, hc, hbc⟩ := hv
  obtain ⟨p, hp⟩ := getElem?_some_of_lt (chains_list npe.expr) hrank
  obtain ⟨a, b⟩ := p
  have hne : 0 < npe.expr.length := by
    rcases Nat.eq_zero_or_pos npe.expr.length with h | h
    · exfalso
      have : npe.expr = [] := List.length_eq_zero.mp h
      rw [this] at hp
      have : chains_list ([] : List TreeItem) = [] := by
        unfold chains_list; rw [chains_go_nil]; simp
      rw [this] at hp
      simp at hp
    · exact h
  have h0 : rect_at npe.expr 0 = true := first_rect_of_ballot hb hne
  have hchain : IsChain npe.expr a b :=
    ((chains_list_spec h0).1 a b).mp (List.getElem?_mem hp)
  have hm := m2_eq (show chains_nth (chains_init npe.expr) n = some (a, b) from by
    rw [chains_nth_init]; exact hp)
  have hkind := flip_range_kind npe.expr a b
  have hlen := flip_range_length npe.expr a b
  refine ⟨_, hm, ⟨?_, ?_, ?_, ?_, ?_⟩, hlen, rfl, ?_, ?_⟩
  · exact ballot_prop_congr hlen.symm (fun j => (hkind j).symm) hb
  · exact normalized_flip_chain hchain hn
  · intro p hp' q hq' hpq
    rw [hlen] at hp' hq'
    rw [flip_range_rect_idx, flip_range_rect_idx]
    exact hd p hp' q hq' hpq
  · unfold Complete at hc ⊢
    rw [countP_congr_of_kind _ _ _ hlen hkind,
      countP_congr_of_kind _ _ _ hlen (fun j => map_congr_is_cut (hkind j))]
    exact hc
  · unfold BallotCorrect at hbc ⊢
    rw [hbc]
    exact (spec_ballot_congr _ _ hlen hkind).symm
  · exact countP_congr_of_kind _ _ _ hlen hkind
  · exact countP_congr_of_kind _ _ _ hlen (fun j => map_congr_is_cut (hkind j))

/-! ## The M3 move -/

theorem windows_distinct_iff : ∀ l : List TreeItem,
    windows_distinct l = true ↔ ∀ k : Nat, k + 1 < l.length → l[k]? ≠ l[k + 1]? := by
  intro l
  match l with
  | [] => simp [windows_distinct]
  | [x] => simp [windows_distinct]
  | x :: y :: rest =>
    have hred : windows_distinct (x :: y :: rest) =
        (decide (x ≠ y) && windows_distinct (y :: rest)) := rfl
    rw [hred]
    constructor
    · intro h k hk
      have hxy : x ≠ y := by
        have := (Bool.and_eq_true _ _).mp h
        exact of_decide_eq_true this.1
      have htl := (windows_distinct_iff (y :: rest)).mp ((Bool.and_eq_true _ _).mp h).2
      cases k with
      | zero => simpa using hxy
      | succ k =>
        have := htl k (by simpa using hk)
        simpa using this
    · intro h
      refine (Bool.and_eq_true _ _).mpr ⟨decide_eq_true ?_, ?_⟩
      · have := h 0 (by simp)
        simpa using this
      · refine (windows_distinct_iff (y :: rest)).mpr ?_
        intro k hk
        have := h (k + 1) (by simpa using hk)
        simpa using this

theorem is_normalized_eq {expr : List TreeItem} {a b : Nat}
    (hb : b < expr.length) (hab : a ≤ b + 1) :
    NPE.is_normalized expr a b =
      some (windows_distinct ((expr.drop a).take (b + 1 - a))) := by
  unfold NPE.is_normalized
  rw [if_pos ⟨hb, hab⟩]

theorem is_normalized_true_iff {expr : List TreeItem} {a b : Nat}
    (hblt : b < expr.length) (hab : a ≤ b) :
    NPE.is_normalized expr a b = some true ↔
      ∀ k : Nat, a ≤ k → k < b → expr[k]? ≠ expr[k + 1]? := by
  rw [is_normalized_eq hblt (by omega), Option.some_inj]
  rw [windows_distinct_iff]
  have hslice : ∀ j : Nat, j < b + 1 - a → ((expr.drop a).take (b + 1 - a))[j]? = expr[a + j]? := by
    intro j hj
    rw [List.getElem?_take, if_pos hj, List.getElem?_drop]
  have hslen : ((expr.drop a).take (b + 1 - a)).length = b + 1 - a := by
    rw [List.length_take, List.length_drop]
    omega
  constructor
  · intro h k hk1 hk2
    have hj : k - a + 1 < b + 1 - a := by omega
    have := h (k - a) (by rw [hslen]; omega)
    rw [hslice (k - a) (by omega), hslice (k - a + 1) (by omega)] at this
    rw [show a + (k - a) = k from by omega] at this
    rw [show a + (k - a + 1) = k + 1 from by omega] at this
    exact this
  · intro h j hj
    rw [hslen] at hj
    rw [hslice j (by omega), hslice (j + 1) (by omega)]
    rw [show a + (j + 1) = (a + j) + 1 from by omega]
    exact h (a + j) (by omega) (by omega)

theorem satisfies_ballot_eq {npe : NPE} (hbc : BallotCorrect npe) {b : Nat}
    (hb : b < npe.expr.length) (a : Nat) :
    npe.satisfies_ballot a b =
      some (decide (2 * (npe.expr.take (b + 1)).countP TreeItem.is_cut < a)) := by
  unfold NPE.satisfies_ballot
  unfold BallotCorrect at hbc
  rw [hbc, spec_ballot_getElem? _ hb]
  rfl

theorem m3_candidates_mem {expr : List TreeItem} {i : Nat} (h : i ∈ m3_candidates expr) :
    i + 1 < expr.length ∧
      ((rect_at expr i = true ∧ cut_at expr (i + 1) = true) ∨
       (cut_at expr i = true ∧ rect_at expr (i + 1) = true)) := by
  unfold m3_candidates at h
  obtain ⟨hrange, hpred⟩ := List.mem_filter.mp h
  have hilt : i < expr.length - 1 := List.mem_range.mp hrange
  refine ⟨by omega, ?_⟩
  obtain ⟨u, hu⟩ := getElem?_some_of_lt expr (show i < expr.length from by omega)
  obtain ⟨v, hv⟩ := getElem?_some_of_lt expr (show i + 1 < expr.length from by omega)
  rw [hu, hv] at hpred
  unfold rect_at cut_at
  rw [hu, hv]
  rcases (Bool.or_eq_true _ _).mp hpred with hc | hc
  · exact Or.inl ⟨(Bool.and_eq_true _ _).mp hc |>.1, (Bool.and_eq_true _ _).mp hc |>.2⟩
  · exact Or.inr ⟨(Bool.and_eq_true _ _).mp hc |>.1, (Bool.and_eq_true _ _).mp hc |>.2⟩

/-- The prefixes strictly below the swapped positions are untouched. -/
theorem take_swap_below {l : List TreeItem} {i : Nat} {u v : TreeItem}
    (hu : l[i]? = some u) (hv : l[i + 1]? = some v) {m : Nat} (hm : m ≤ i) :
    ((l.set i v).set (i + 1) u).take m = l.take m := by
  apply List.ext_getElem?
  intro j
  rw [List.getElem?_take, List.getElem?_take]
  by_cases hj : j < m
  · rw [if_pos hj, if_pos hj, swap_getElem? hu hv j,
      show transpose_idx i (i + 1) j = j from by
        unfold transpose_idx; rw [if_neg (by omega), if_neg (by omega)]]
  · rw [if_neg hj, if_neg hj]

/-- The prefixes containing both swapped positions are permuted, hence
count-equal. -/
theorem swap_adjacent_take_perm :
    ∀ (i : Nat) (l : List TreeItem) (u v : TreeItem),
      l[i]? = some u → l[i + 1]? = some v → ∀ m : Nat, i + 2 ≤ m →
      List.Perm (((l.set i v).set (i + 1) u).take m) (l.take m) := by
  intro i
  induction i with
  | zero =>
    intro l u v hu hv m hm
    cases l with
    | nil => simp at hu
    | cons x t =>
      cases t with
      | nil => simp at hv
      | cons y t2 =>
        have hxu : x = u := by simpa using hu
        have hyv : y = v := by simpa using hv
        have hsw : ((x :: y :: t2).set 0 v).set (0 + 1) u = v :: u :: t2 := rfl
        rw [hsw]
        have h1 : m = (m - 2) + 1 + 1 := by omega
        rw [h1, List.take_succ_cons, List.take_succ_cons, List.take_succ_cons,
          List.take_succ_cons, hxu, hyv]
        exact List.Perm.swap u v (List.take (m - 2) t2)
  | succ i ih =>
    intro l u v hu hv m hm
    cases l with
    | nil => simp at hu
    | cons x t =>
      have hu' : t[i]? = some u := by simpa using hu
      have hv' : t[i + 1]? = some v := by simpa using hv
      obtain ⟨m1, hm1⟩ : ∃ m1, m = m1 + 1 := ⟨m - 1, by omega⟩
      subst hm1
      show List.Perm (List.take (m1 + 1) (x :: (t.set i v).set (i + 1) u))
        (List.take (m1 + 1) (x :: t))
      rw [List.take_succ_cons, List.take_succ_cons]
      exact List.Perm.cons x (ih t u v hu' hv' m1 (by omega))

/-- After an accepted M3 swap, the ballot property still holds: moving an
operator one place to the left is exactly what the ballot test checked,
and moving it to the right only loosens every prefix. -/
theorem ballot_prop_swap {expr : List TreeItem} {i : Nat} {u v : TreeItem}
    (hu : expr[i]? = some u) (hv : expr[i + 1]? = some v)
    (hb : BallotProp expr)
    (htest : 2 * (expr.take (i + 2)).countP TreeItem.is_cut < i) :
    BallotProp ((expr.set i v).set (i + 1) u) := by
  intro k hk
  rw [swap_length] at hk
  by_cases hklt : k < i
  · rw [take_swap_below hu hv (by omega)]
    exact hb k hk
  · by_cases hkgt : i < k
    · have hperm := swap_adjacent_take_perm i expr u v hu hv (k + 1) (by omega)
      rw [hperm.countP_eq]
      exact hb k hk
    · -- k = i, the position the test guards
      have hki : k = i := by omega
      subst hki
      have htk : ((expr.set k v).set (k + 1) u).take (k + 1) = expr.take k ++ [v] := by
        rw [List.take_succ, take_swap_below hu hv (Nat.le_refl k)]
        rw [show (((expr.set k v).set (k + 1) u)[k]? : Option TreeItem) = some v from by
          rw [swap_getElem? hu hv k,
            show transpose_idx k (k + 1) k = k + 1 from by
              unfold transpose_idx; rw [if_pos rfl]]
          exact hv]
        rfl
      rw [htk, List.countP_append]
      have hc2 : (expr.take (k + 2)).countP TreeItem.is_cut =
          (expr.take k).countP TreeItem.is_cut + [u].countP TreeItem.is_cut +
            [v].countP TreeItem.is_cut := by
        rw [show k + 2 = k + 1 + 1 from rfl, List.take_succ, List.countP_append,
          List.take_succ, List.countP_append, hu, hv]
        rfl
      rw [hc2] at htest
      omega

/-- After a swap whose surrounding window has been re-checked, the whole
sequence is normalized: every pair outside the window is untouched. -/
theorem normalized_after_swap_window {expr : List TreeItem} {i : Nat} {u v : TreeItem}
    (hu : expr[i]? = some u) (hv : expr[i + 1]? = some v)
    (hn : Normalized expr)
    (hwin : ∀ k : Nat, i - 1 ≤ k → k < i + 2 →
      ((expr.set i v).set (i + 1) u)[k]? ≠ ((expr.set i v).set (i + 1) u)[k + 1]?) :
    Normalized ((expr.set i v).set (i + 1) u) := by
  intro k hk
  rw [swap_length] at hk
  by_cases hkw : i - 1 ≤ k ∧ k < i + 2
  · exact hwin k hkw.1 hkw.2
  · have hkni : k ≠ i ∧ k ≠ i + 1 ∧ k + 1 ≠ i ∧ k + 1 ≠ i + 1 := by omega
    rw [swap_getElem? hu hv k, swap_getElem? hu hv (k + 1)]
    rw [show transpose_idx i (i + 1) k = k from by
      unfold transpose_idx; rw [if_neg hkni.1, if_neg hkni.2.1]]
    rw [show transpose_idx i (i + 1) (k + 1) = k + 1 from by
      unfold transpose_idx; rw [if_neg hkni.2.2.1, if_neg hkni.2.2.2]]
    exact hn k hk

/-- The master M3 lemma: on a valid NPE, trying any list of genuine
candidate boundaries never panics, preserves validity, and either leaves
the NPE untouched or swaps exactly one adjacent operand/operator pair
(recomputing the ballot), the result being normalized and ballot-valid. -/
theorem m3_go_spec {npe : NPE} (hv : Valid npe) :
    ∀ ord : List Nat, (∀ i ∈ ord, i ∈ m3_candidates npe.expr) →
      ∃ npe', npe.m3_go ord = some npe' ∧ Valid npe' ∧
        (npe' = npe ∨
         ∃ i, i + 1 < npe.expr.length ∧
           npe'.expr[i]? = npe.expr[i + 1]? ∧
           npe'.expr[i + 1]? = npe.expr[i]? ∧
           (∀ j : Nat, j ≠ i → j ≠ i + 1 → npe'.expr[j]? = npe.expr[j]?) ∧
           npe.expr[i]? ≠ npe.expr[i + 1]? ∧
           npe'.expr.length = npe.expr.length) := by
  intro ord
  induction ord with
  | nil =>
    intro _
    exact ⟨npe, rfl, hv, Or.inl rfl⟩
  | cons i rest ih =>
    intro hord
    obtain ⟨hi1, hkinds⟩ := m3_candidates_mem (hord i (List.mem_cons_self i rest))
    obtain ⟨hb, hn, hd, hc, hbc⟩ := hv
    have hrest : ∀ j ∈ rest, j ∈ m3_candidates npe.expr :=
      fun j hj => hord j (List.mem_cons_of_mem i hj)
    have hilt : i < npe.expr.length := by omega
    obtain ⟨u, hu⟩ := getElem?_some_of_lt npe.expr hilt
    obtain ⟨v, hv2⟩ := getElem?_some_of_lt npe.expr hi1
    have hsb := satisfies_ballot_eq hbc hi1 i
    have hred : npe.m3_go (i :: rest) =
        (match npe.is_swap_normalized i (i + 1) with
        | none => none
        | some false => npe.m3_go rest
        | some true =>
          match list_swap npe.expr i (i + 1) with
          | none => none
          | some e' =>
            match NPE.is_normalized e' (i - 1) (i + 2) with
            | none => none
            | some false => npe.m3_go rest
            | some true => some ⟨e', NPE.calculate_ballot e'⟩) := rfl
    by_cases htest : 2 * (npe.expr.take (i + 2)).countP TreeItem.is_cut < i
    · -- ballot test passes; completeness puts the boundary strictly inside
      have hi2 : i + 2 < npe.expr.length := by
        rcases Nat.lt_or_ge (i + 2) npe.expr.length with h | h
        · exact h
        · exfalso
          have hfull : npe.expr.take (i + 2) = npe.expr :=
            List.take_of_length_le h
          rw [hfull] at htest
          have hcnt := count_split npe.expr
          unfold Complete at hc
          omega
      have hswn : npe.is_swap_normalized i (i + 1) =
          NPE.is_normalized npe.expr (i - 1) (i + 2) := by
        unfold NPE.is_swap_normalized
        rw [hsb, decide_eq_true htest]
        rfl
      have hpre : NPE.is_normalized npe.expr (i - 1) (i + 2) = some true := by
        rw [is_normalized_true_iff hi2 (by omega)]
        intro k hk1 hk2
        exact hn k (by omega)
      have hswap : list_swap npe.expr i (i + 1) =
          some ((npe.expr.set i v).set (i + 1) u) := list_swap_eq hu hv2
      have hlen' : ((npe.expr.set i v).set (i + 1) u).length = npe.expr.length :=
        swap_length _ _ _ _
      have e1 : npe.m3_go (i :: rest) =
          (match list_swap npe.expr i (i + 1) with
           | none => none
           | some e' =>
             match NPE.is_normalized e' (i - 1) (i + 2) with
             | none => none
             | some false => npe.m3_go rest
             | some true => some ⟨e', NPE.calculate_ballot e'⟩) := by
        rw [hred, hswn, hpre]
      have e2 : npe.m3_go (i :: rest) =
          (match NPE.is_normalized ((npe.expr.set i v).set (i + 1) u) (i - 1) (i + 2) with
           | none => none
           | some false => npe.m3_go rest
           | some true => some ⟨(npe.expr.set i v).set (i + 1) u,
               NPE.calculate_ballot ((npe.expr.set i v).set (i + 1) u)⟩) := by
        rw [e1, hswap]
      cases hpost : NPE.is_normalized ((npe.expr.set i v).set (i + 1) u) (i - 1) (i + 2) with
      | none =>
        exfalso
        unfold NPE.is_normalized at hpost
        rw [if_pos ⟨by rw [hlen']; omega, by omega⟩] at hpost
        exact Option.noConfusion hpost
      | some w =>
        cases w with
        | false =>
          rw [e2, hpost]
          exact ih hrest
        | true =>
          rw [e2, hpost]
          have hwin := (is_normalized_true_iff
            (show i + 2 < ((npe.expr.set i v).set (i + 1) u).length from by
              rw [hlen']; omega)
            (show i - 1 ≤ i + 2 from by omega)).mp hpost
          have hperm := swap_adjacent_take_perm i npe.expr u v hu hv2
            npe.expr.length (by omega)
          rw [List.take_of_length_le (by rw [hlen']) ,
            List.take_of_length_le (by omega)] at hperm
          have huv_kinds : npe.expr[i]? ≠ npe.expr[i + 1]? := by
            rw [hu, hv2]
            intro h
            have huv : u = v := Option.some_inj.mp h
            rcases hkinds with ⟨hr, hcu⟩ | ⟨hcu, hr⟩
            · unfold rect_at at hr
              unfold cut_at at hcu
              rw [hu] at hr; rw [hv2] at hcu
              exact ne_of_kind hr hcu huv
            · unfold cut_at at hcu
              unfold rect_at at hr
              rw [hu] at hcu; rw [hv2] at hr
              exact ne_of_kind hr hcu huv.symm
          refine ⟨⟨(npe.expr.set i v).set (i + 1) u,
            NPE.calculate_ballot ((npe.expr.set i v).set (i + 1) u)⟩, rfl,
            ⟨?_, ?_, ?_, ?_, ?_⟩, Or.inr ⟨i, hi1, ?_, ?_, ?_, huv_kinds, hlen'⟩⟩
          · exact ballot_prop_swap hu hv2 hb htest
          · exact normalized_after_swap_window hu hv2 hn hwin
          · exact operands_distinct_swap hu hv2 hd
          · unfold Complete at hc ⊢
            rw [hperm.countP_eq, (hperm.countP_eq TreeItem.is_cut :
              _ = _)]
            exact hc
          · exact calculate_ballot_eq_spec _
          · show ((npe.expr.set i v).set (i + 1) u)[i]? = npe.expr[i + 1]?
            rw [swap_getElem? hu hv2 i,
              show transpose_idx i (i + 1) i = i + 1 from by
                unfold transpose_idx; rw [if_pos rfl]]
          · show ((npe.expr.set i v).set (i + 1) u)[i + 1]? = npe.expr[i]?
            rw [swap_getElem? hu hv2 (i + 1),
              show transpose_idx i (i + 1) (i + 1) = i from by
                unfold transpose_idx; rw [if_neg (by omega), if_pos rfl]]
          · intro j hj1 hj2
            show ((npe.expr.set i v).set (i + 1) u)[j]? = npe.expr[j]?
            rw [swap_getElem? hu hv2 j,
              show transpose_idx i (i + 1) j = j from by
                unfold transpose_idx; rw [if_neg hj1, if_neg hj2]]
    · -- ballot test fails: candidate rejected without touching anything
      have hswn : npe.is_swap_normalized i (i + 1) = some false := by
        unfold NPE.is_swap_normalized
        rw [hsb, decide_eq_false htest]
        rfl
      rw [hred, hswn]
      exact ih hrest

/-! ## Decode agreement: the tree evaluator versus the NPE stack evaluator -/

theorem node_ok_cases {t : SlicingTree} {i : Nat} {node : Node}
    (hok : node_ok t i = true) (hget : t.nodes[i]? = some node) :
    (∃ r, node.rect = some r ∧ r < t.data.length) ∨
    (node.rect = none ∧ ∃ l r c, node.left = some l ∧ node.right = some r ∧
      node.cut = some c ∧ i < l ∧ l < t.nodes.length ∧ i < r ∧ r < t.nodes.length) := by
  unfold node_ok at hok
  rw [hget] at hok
  have hok2 : (match node.rect with
      | some r => decide (r < t.data.length)
      | none =>
        match node.left, node.right, node.cut with
        | some l, some r, some _ =>
          decide (i < l) && decide (l < t.nodes.length) &&
          decide (i < r) && decide (r < t.nodes.length)
        | _, _, _ => false) = true := hok
  cases hrect : node.rect with
  | some r =>
    rw [hrect] at hok2
    exact Or.inl ⟨r, rfl, of_decide_eq_true hok2⟩
  | none =>
    rw [hrect] at hok2
    cases hl : node.left with
    | none => rw [hl] at hok2; cases hr : node.right <;> rw [hr] at hok2 <;>
        cases hcf : node.cut <;> rw [hcf] at hok2 <;> exact Bool.noConfusion hok2
    | some l =>
      rw [hl] at hok2
      cases hr : node.right with
      | none => rw [hr] at hok2; cases hcf : node.cut <;> rw [hcf] at hok2 <;>
          exact Bool.noConfusion hok2
      | some r =>
        rw [hr] at hok2
        cases hcf : node.cut with
        | none => rw [hcf] at hok2; exact Bool.noConfusion hok2
        | some c =>
          rw [hcf] at hok2
          have h1 := (Bool.and_eq_true _ _).mp hok2
          have h2 := (Bool.and_eq_true _ _).mp h1.1
          have h3 := (Bool.and_eq_true _ _).mp h2.1
          exact Or.inr ⟨rfl, l, r, c, rfl, rfl, rfl,
            of_decide_eq_true h3.1, of_decide_eq_true h3.2,
            of_decide_eq_true h2.2, of_decide_eq_true h1.2⟩

theorem tree_eval_agree {t : SlicingTree} (hwf : t.WF) :
    ∀ fuel root, root < t.nodes.length → t.nodes.length - root ≤ fuel →
      ∃ toks rect, t.postorder_fuel fuel root = some toks ∧
        t.aabb_fuel fuel root = some rect ∧
        ∀ (rest : List TreeItem) (st : List Rect),
          aabb_stack t.data (toks ++ rest) st = aabb_stack t.data rest (rect :: st) := by
  intro fuel
  induction fuel with
  | zero => intro root h1 h2; omega
  | succ fuel ih =>
    intro root hroot hfuel
    obtain ⟨node, hnode⟩ := getElem?_some_of_lt t.nodes hroot
    have hok := hwf.2 root hroot
    have hpred : t.postorder_fuel (fuel + 1) root =
        (match t.nodes[root]? with
         | none => none
         | some node =>
           match node.rect with
           | some r => some [TreeItem.Rect r]
           | none =>
             match node.left, node.right with
             | some l, some r =>
               match t.postorder_fuel fuel l, t.postorder_fuel fuel r with
               | some ls, some rs =>
                 some (ls ++ rs ++ (match node.cut with
                   | some c => [TreeItem.Cut c]
                   | none => []))
               | _, _ => none
             | _, _ => none) := rfl
    have hared : t.aabb_fuel (fuel + 1) root =
        (match t.nodes[root]? with
         | none => none
         | some node =>
           match node.rect with
           | some r => t.data[r]?
           | none =>
             match node.left, node.right, node.cut with
             | some l, some r, some c =>
               match t.aabb_fuel fuel l, t.aabb_fuel fuel r with
               | some lr, some rr => some (Rect.aabb lr rr c)
               | _, _ => none
             | _, _, _ => none) := rfl
    rcases node_ok_cases hok hnode with ⟨r, hrect, hrlt⟩ |
      ⟨hrect, l, rr, c, hl, hr, hc, hil, hllt, hir, hrrlt⟩
    · -- leaf node
      obtain ⟨rv, hrv⟩ := getElem?_some_of_lt t.data hrlt
      have hp1 : t.postorder_fuel (fuel + 1) root = some [TreeItem.Rect r] := by
        rw [hpred, hnode]
        show (match node.rect with
          | some r => some [TreeItem.Rect r]
          | none =>
            match node.left, node.right with
            | some l, some r =>
              match t.postorder_fuel fuel l, t.postorder_fuel fuel r with
              | some ls, some rs =>
                some (ls ++ rs ++ (match node.cut with
                  | some c => [TreeItem.Cut c]
                  | none => []))
              | _, _ => none
            | _, _ => none) = some [TreeItem.Rect r]
        rw [hrect]
      have ha1 : t.aabb_fuel (fuel + 1) root = some rv := by
        rw [hared, hnode]
        show (match node.rect with
          | some r => t.data[r]?
          | none =>
            match node.left, node.right, node.cut with
            | some l, some r, some c =>
              match t.aabb_fuel fuel l, t.aabb_fuel fuel r with
              | some lr, some rr => some (Rect.aabb lr rr c)
              | _, _ => none
            | _, _, _ => none) = some rv
        rw [hrect]
        exact hrv
      refine ⟨[TreeItem.Rect r], rv, hp1, ha1, ?_⟩
      intro rest st
      show aabb_stack t.data (TreeItem.Rect r :: rest) st = _
      show (match t.data[r]? with
        | some x => aabb_stack t.data rest (x :: st)
        | none => none) = _
      rw [hrv]
    · -- internal node
      obtain ⟨ls, lrect, hpl, hal, hsl⟩ :=
        ih l hllt (by omega)
      obtain ⟨rs, rrect, hpr, har, hsr⟩ :=
        ih rr hrrlt (by omega)
      have hp1 : t.postorder_fuel (fuel + 1) root =
          some (ls ++ rs ++ [TreeItem.Cut c]) := by
        rw [hpred, hnode]
        show (match node.rect with
          | some r => some [TreeItem.Rect r]
          | none =>
            match node.left, node.right with
            | some l, some r =>
              match t.postorder_fuel fuel l, t.postorder_fuel fuel r with
              | some ls, some rs =>
                some (ls ++ rs ++ (match node.cut with
                  | some c => [TreeItem.Cut c]
                  | none => []))
              | _, _ => none
            | _, _ => none) = some (ls ++ rs ++ [TreeItem.Cut c])
        rw [hrect]
        show (match node.left, node.right with
          | some l, some r =>
            match t.postorder_fuel fuel l, t.postorder_fuel fuel r with
            | some ls, some rs =>
              some (ls ++ rs ++ (match node.cut with
                | some c => [TreeItem.Cut c]
                | none => []))
            | _, _ => none
          | _, _ => none) = some (ls ++ rs ++ [TreeItem.Cut c])
        rw [hl, hr]
        show (match t.postorder_fuel fuel l, t.postorder_fuel fuel rr with
          | some ls, some rs =>
            some (ls ++ rs ++ (match node.cut with
              | some c => [TreeItem.Cut c]
              | none => []))
          | _, _ => none) = some (ls ++ rs ++ [TreeItem.Cut c])
        rw [hpl, hpr]
        show some (ls ++ rs ++ (match node.cut with
          | some c => [TreeItem.Cut c]
          | none => [])) = some (ls ++ rs ++ [TreeItem.Cut c])
        rw [hc]
      have ha1 : t.aabb_fuel (fuel + 1) root = some (Rect.aabb lrect rrect c) := by
        rw [hared, hnode]
        show (match node.rect with
          | some r => t.data[r]?
          | none =>
            match node.left, node.right, node.cut with
            | some l, some r, some c =>
              match t.aabb_fuel fuel l, t.aabb_fuel fuel r with
              | some lr, some rr => some (Rect.aabb lr rr c)
              | _, _ => none
            | _, _, _ => none) = some (Rect.aabb lrect rrect c)
        rw [hrect]
        show (match node.left, node.right, node.cut with
          | some l, some r, some c =>
            match t.aabb_fuel fuel l, t.aabb_fuel fuel r with
            | some lr, some rr => some (Rect.aabb lr rr c)
            | _, _ => none
          | _, _, _ => none) = some (Rect.aabb lrect rrect c)
        rw [hl, hr, hc]
        show (match t.aabb_fuel fuel l, t.aabb_fuel fuel rr with
          | some lr, some rr2 => some (Rect.aabb lr rr2 c)
          | _, _ => none) = some (Rect.aabb lrect rrect c)
        rw [hal, har]
      refine ⟨ls ++ rs ++ [TreeItem.Cut c], Rect.aabb lrect rrect c, hp1, ha1, ?_⟩
      intro rest st
      simp only [List.append_assoc]
      rw [hsl, hsr]
      rfl

/-! ## Stack safety of the NPE evaluator -/

theorem aabb_stack_sound (rects : List Rect) :
    ∀ (l : List TreeItem) (st : List Rect),
      (∀ k : Nat, k < l.length →
        (l.take (k + 1)).countP TreeItem.is_cut <
          (l.take (k + 1)).countP TreeItem.is_rect + st.length) →
      (∀ i : Nat, TreeItem.Rect i ∈ l → i < rects.length) →
      ∃ st', aabb_stack rects l st = some st' ∧
        st'.length + l.countP TreeItem.is_cut = st.length + l.countP TreeItem.is_rect := by
  intro l
  induction l with
  | nil =>
    intro st _ _
    exact ⟨st, rfl, by simp⟩
  | cons t rest ih =>
    intro st hbal hidx
    cases t with
    | Rect i =>
      have hi : i < rects.length := hidx i (List.mem_cons_self _ _)
      obtain ⟨r, hr⟩ := getElem?_some_of_lt rects hi
      have hb' : ∀ k : Nat, k < rest.length →
          (rest.take (k + 1)).countP TreeItem.is_cut <
            (rest.take (k + 1)).countP TreeItem.is_rect + (r :: st).length := by
        intro k hk
        have h := hbal (k + 1) (by simp only [List.length_cons]; omega)
        rw [List.take_succ_cons, List.countP_cons, List.countP_cons] at h
        simp [TreeItem.is_rect, TreeItem.is_cut] at h
        simp only [List.length_cons]
        omega
      obtain ⟨st', hst', hlen⟩ := ih (r :: st) hb'
        (fun j hj => hidx j (List.mem_cons_of_mem _ hj))
      refine ⟨st', ?_, ?_⟩
      · show (match rects[i]? with
          | some r => aabb_stack rects rest (r :: st)
          | none => none) = some st'
        rw [hr]
        exact hst'
      · rw [List.countP_cons, List.countP_cons]
        simp [TreeItem.is_rect, TreeItem.is_cut] at hlen ⊢
        omega
    | Cut c =>
      have h0 := hbal 0 (by simp)
      rw [List.take_succ_cons, List.take_zero, List.countP_cons, List.countP_cons] at h0
      simp [TreeItem.is_rect, TreeItem.is_cut] at h0
      have hst2 : 2 ≤ st.length := by omega
      cases st with
      | nil => simp at hst2
      | cons r1 st1 =>
        cases st1 with
        | nil => simp at hst2
        | cons r2 st2 =>
          have hb' : ∀ k : Nat, k < rest.length →
              (rest.take (k + 1)).countP TreeItem.is_cut <
                (rest.take (k + 1)).countP TreeItem.is_rect +
                  (Rect.aabb r2 r1 c :: st2).length := by
            intro k hk
            have h := hbal (k + 1) (by simp only [List.length_cons]; omega)
            rw [List.take_succ_cons, List.countP_cons, List.countP_cons] at h
            simp [TreeItem.is_rect, TreeItem.is_cut] at h
            simp only [List.length_cons] at h ⊢
            omega
          obtain ⟨st', hst', hlen⟩ := ih (Rect.aabb r2 r1 c :: st2) hb'
            (fun j hj => hidx j (List.mem_cons_of_mem _ hj))
          refine ⟨st', hst', ?_⟩
          rw [List.countP_cons, List.countP_cons]
          simp [TreeItem.is_rect, TreeItem.is_cut] at hlen ⊢
          omega

/-! ## Single moves and move sequences -/

/-- Invert a successful `m2` without any validity assumption. -/
theorem m2_inv {npe npe' : NPE} {n : Nat} (h : npe.m2 n = some npe') :
    ∃ a b, chains_nth (chains_init npe.expr) n = some (a, b) ∧
      npe' = ⟨flip_range npe.expr a b, npe.ballot⟩ := by
  unfold NPE.m2 at h
  cases hc : chains_nth (chains_init npe.expr) n with
  | none => rw [hc] at h; exact Option.noConfusion h
  | some p =>
    obtain ⟨a, b⟩ := p
    rw [hc] at h
    exact ⟨a, b, rfl, (Option.some_inj.mp h).symm⟩

/-- Whatever the inputs, a successful `m3_go` returns either the original
NPE or a sequence paired with its freshly recomputed ballot. -/
theorem m3_go_result : ∀ (ord : List Nat) (npe npe' : NPE),
    npe.m3_go ord = some npe' →
    npe' = npe ∨ ∃ e', npe' = ⟨e', NPE.calculate_ballot e'⟩ := by
  intro ord
  induction ord with
  | nil =>
    intro npe npe' h
    exact Or.inl (Option.some_inj.mp h).symm
  | cons i rest ih =>
    intro npe npe' h
    have hred : npe.m3_go (i :: rest) =
        (match npe.is_swap_normalized i (i + 1) with
        | none => none
        | some false => npe.m3_go rest
        | some true =>
          match list_swap npe.expr i (i + 1) with
          | none => none
          | some e' =>
            match NPE.is_normalized e' (i - 1) (i + 2) with
            | none => none
            | some false => npe.m3_go rest
            | some true => some ⟨e', NPE.calculate_ballot e'⟩) := rfl
    rw [hred] at h
    cases hsw : npe.is_swap_normalized i (i + 1) with
    | none => rw [hsw] at h; exact Option.noConfusion h
    | some sb =>
      rw [hsw] at h
      cases sb with
      | false => exact ih npe npe' h
      | true =>
        have h2 : (match list_swap npe.expr i (i + 1) with
            | none => none
            | some e' =>
              match NPE.is_normalized e' (i - 1) (i + 2) with
              | none => none
              | some false => npe.m3_go rest
              | some true => some (⟨e', NPE.calculate_ballot e'⟩ : NPE)) = some npe' := h
        cases hls : list_swap npe.expr i (i + 1) with
        | none => rw [hls] at h2; exact Option.noConfusion h2
        | some e' =>
          rw [hls] at h2
          have h3 : (match NPE.is_normalized e' (i - 1) (i + 2) with
              | none => none
              | some false => npe.m3_go rest
              | some true => some (⟨e', NPE.calculate_ballot e'⟩ : NPE)) = some npe' := h2
          cases hpo : NPE.is_normalized e' (i - 1) (i + 2) with
          | none => rw [hpo] at h3; exact Option.noConfusion h3
          | some w =>
            rw [hpo] at h3
            cases w with
            | false => exact ih npe npe' h3
            | true => exact Or.inr ⟨e', (Option.some_inj.mp h3).symm⟩

/-- Any single valid move on a valid NPE succeeds and yields a valid NPE. -/
theorem move_preserves_valid {npe : NPE} {mv : Move} (hv : Valid npe)
    (hmv : move_valid npe mv = true) :
    ∃ npe', applyMove npe mv = some npe' ∧ Valid npe' := by
  cases mv with
  | m1 a =>
    have hmv' : decide (a + 1 < npe.count_operands) = true := hmv
    obtain ⟨npe', h1, h2, _⟩ := m1_preserves_valid hv (of_decide_eq_true hmv')
    exact ⟨npe', h1, h2⟩
  | m2 n =>
    have hmv' : decide (n < (chains_list npe.expr).length) = true := hmv
    obtain ⟨npe', h1, h2, _⟩ := m2_preserves_valid hv (of_decide_eq_true hmv')
    exact ⟨npe', h1, h2⟩
  | m3 ord =>
    have hmv' : decide (List.Perm ord (m3_candidates npe.expr)) = true := hmv
    have hperm := of_decide_eq_true hmv'
    obtain ⟨npe', h1, h2, _⟩ :=
      m3_go_spec hv ord (fun i hi => hperm.mem_iff.mp hi)
    exact ⟨npe', h1, h2⟩

/-- Validity is preserved along every prefix of a stepwise-valid move
sequence. -/
theorem applyMoves_prefix_valid (suf : List Move) :
    ∀ (pre : List Move) (npe : NPE), Valid npe →
      seq_valid npe (pre ++ suf) = true →
      ∃ npe', applyMoves npe pre = some npe' ∧ Valid npe' ∧
        seq_valid npe' suf = true := by
  intro pre
  induction pre with
  | nil =>
    intro npe hv hs
    exact ⟨npe, rfl, hv, hs⟩
  | cons mv rest ih =>
    intro npe hv hs
    have hs' : (move_valid npe mv &&
        (match applyMove npe mv with
         | some npe' => seq_valid npe' (rest ++ suf)
         | none => true)) = true := hs
    obtain ⟨hmv, hrest⟩ := (Bool.and_eq_true _ _).mp hs'
    obtain ⟨npe₁, ha, hv₁⟩ := move_preserves_valid hv hmv
    rw [ha] at hrest
    obtain ⟨npe', hms, hv', hsuf⟩ := ih npe₁ hv₁ hrest
    refine ⟨npe', ?_, hv', hsuf⟩
    show (match applyMove npe mv with
      | some npe₁ => applyMoves npe₁ rest
      | none => none) = some npe'
    rw [ha]
    exact hms

/-- A successful move — any rank, any order, no validity assumed — keeps
the stored ballot equal to the spec's prefix sums. -/
theorem ballot_correct_move {npe npe' : NPE} {mv : Move}
    (hbc : BallotCorrect npe) (h : applyMove npe mv = some npe') :
    BallotCorrect npe' := by
  cases mv with
  | m1 a =>
    obtain ⟨a_idx, b_idx, x, y, hx, hy, he, hbal⟩ := m1_inv h
    exact ballot_correct_swap_rects hx hy he hbal hbc
  | m2 n =>
    obtain ⟨a, b, _, he⟩ := m2_inv h
    subst he
    unfold BallotCorrect at hbc ⊢
    show npe.ballot = spec_ballot (flip_range npe.expr a b)
    rw [hbc]
    exact (spec_ballot_congr _ _ (flip_range_length npe.expr a b)
      (flip_range_kind npe.expr a b)).symm
  | m3 ord =>
    rcases m3_go_result ord npe npe' h with he | ⟨e', he⟩
    · subst he; exact hbc
    · subst he
      exact calculate_ballot_eq_spec e'

/-- A successful `chains().nth(n)` on a ballot-valid NPE returns a genuine
chain range. -/
theorem chain_of_chains_nth {npe : NPE} {n a b : Nat} (hb : BallotProp npe.expr)
    (hchain : chains_nth (chains_init npe.expr) n = some (a, b)) :
    IsChain npe.expr a b := by
  rw [chains_nth_init] at hchain
  have hmem := List.getElem?_mem hchain
  have hne : 0 < npe.expr.length := by
    rcases Nat.eq_zero_or_pos npe.expr.length with h | h
    · exfalso
      have hnil : npe.expr = [] := List.length_eq_zero.mp h
      rw [hnil] at hmem
      have hempty : chains_list ([] : List TreeItem) = [] := by
        unfold chains_list
        rw [chains_go_nil]
        simp
      rw [hempty] at hmem
      exact List.not_mem_nil _ hmem
    · exact h
  exact ((chains_list_spec (first_rect_of_ballot hb hne)).1 a b).mp hmem

/-- With a complete expression, the ballot test at the very last boundary
always fails, so the short-circuiting `&&` never reads the inclusive
normalization window that would extend one past the final index. -/
theorem last_boundary_test_fails {npe : NPE} (hbc : BallotCorrect npe)
    (hc : Complete npe.expr) (hlen : 2 ≤ npe.expr.length) :
    npe.is_swap_normalized (npe.expr.length - 2) (npe.expr.length - 1) = some false := by
  have hb1 : npe.expr.length - 1 < npe.expr.length := by omega
  unfold NPE.is_swap_normalized
  rw [satisfies_ballot_eq hbc hb1 (npe.expr.length - 2)]
  have hfull : npe.expr.length - 1 + 1 = npe.expr.length := by omega
  rw [hfull, List.take_length]
  have hsum := count_split npe.expr
  unfold Complete at hc
  rw [decide_eq_false (by omega)]
  rfl

/-- The inner annealing stage executes at most `2*n + 1` iterations: once
`iters` exceeds `2*n` the loop breaks unconditionally. -/
theorem inner_stage_le (n : Nat) (oracle : Nat → Bool) :
    ∀ (m iters uphill : Nat), 2 * n + 1 - iters ≤ m → iters ≤ 2 * n →
      inner_stage n oracle iters uphill ≤ 2 * n + 1 := by
  intro m
  induction m with
  | zero => intro iters uphill h1 h2; omega
  | succ m ih =>
    intro iters uphill h1 h2
    unfold inner_stage
    by_cases hcond : n < (if oracle iters then uphill + 1 else uphill) ∨ 2 * n < iters + 1
    · rw [dif_pos hcond]; omega
    · rw [dif_neg hcond]
      exact ih (iters + 1) (if oracle iters then uphill + 1 else uphill)
        (by omega) (by omega)

/-- Bridge between the decidable `operands_in_range` and the membership
form the evaluator needs. -/
theorem operands_in_range_mem {expr : List TreeItem} {n : Nat}
    (h : operands_in_range expr n) :
    ∀ i : Nat, TreeItem.Rect i ∈ expr → i < n := by
  intro i hmem
  obtain ⟨p, hp⟩ := List.mem_iff_getElem?.mp hmem
  have hlt : p < expr.length := lt_of_getElem?_some hp
  have := h p hlt
  unfold operand_in_range at this
  unfold rect_idx_at at this
  rw [hp] at this
  exact of_decide_eq_true this

/-! ## The claims -/

/-- C1: for every well-formed slicing tree (every node a leaf with a valid
rectangle index or an internal node with a cut and both children present),
the recursive evaluator `SlicingTree::aabb` at the root returns the same
rectangle as the stack evaluator `NPE::aabb` applied to the NPE produced by
`SlicingTree::postorder`, evaluated against the tree's rectangle arena. -/
theorem C1_decode_agreement (t : SlicingTree) (hwf : t.WF) :
    ∃ r : Rect, t.aabb 0 = some r ∧
      (t.postorder.bind fun npe => npe.aabb t.data) = some r := by
  obtain ⟨toks, rect, hp, ha, hs⟩ :=
    tree_eval_agree hwf t.nodes.length 0 hwf.1 (by omega)
  refine ⟨rect, ha, ?_⟩
  unfold SlicingTree.postorder
  rw [hp]
  show (NPE.new toks).aabb t.data = some rect
  unfold NPE.aabb
  show (match aabb_stack t.data toks [] with
    | some st => st.getLast?
    | none => none) = some rect
  have hone := hs [] []
  rw [List.append_nil] at hone
  rw [hone]
  rfl

theorem C1_decode_agreement_witness :
    wtree.WF ∧ ∃ r : Rect, wtree.aabb 0 = some r ∧
      (wtree.postorder.bind fun npe => npe.aabb wtree.data) = some r :=
  ⟨by decide, C1_decode_agreement wtree (by decide)⟩

/-- C2 (counterexample): an NPE can satisfy both stated invariants — the
per-prefix skew/ballot property and no-adjacent-identical-tokens — while a
single `m1` with a valid operand rank breaks normalization, because the
sequence carries a repeated operand index that the swap makes adjacent.
So the claim, which assumes only the two invariants, is false. -/
theorem C2_m1_breaks_normalization :
    BallotProp c2_ex.expr ∧ Normalized c2_ex.expr ∧ BallotCorrect c2_ex ∧
    spec_m1_rank_ok c2_ex 1 ∧
    c2_ex.m1 1 = some c2_ex_after ∧
    ¬ Normalized c2_ex_after.expr := by decide

/-- C2 (amended): on an NPE satisfying both invariants together with the
structural facts every tree-derived NPE enjoys — pairwise-distinct operand
indices, operand count = operator count + 1, and a correct ballot field —
every stepwise-valid sequence of m1/m2/m3 moves runs without panic and
every prefix of it yields an NPE with all of these properties again; in
particular both invariants hold after every single move. -/
theorem C2_moves_preserve_invariants (npe : NPE) (ms : List Move)
    (hv : Valid npe) (hs : seq_valid npe ms = true) :
    ∀ pre suf : List Move, ms = pre ++ suf →
      ∃ npe', applyMoves npe pre = some npe' ∧ Valid npe' := by
  intro pre suf hsplit
  subst hsplit
  obtain ⟨npe', h1, h2, _⟩ := applyMoves_prefix_valid suf pre npe hv hs
  exact ⟨npe', h1, h2⟩

theorem C2_moves_preserve_invariants_witness :
    Valid c2_w ∧ seq_valid c2_w c2_w_moves = true ∧
      (∃ npe', applyMoves c2_w c2_w_moves = some npe' ∧ Valid npe') :=
  ⟨by decide, by decide,
    C2_moves_preserve_invariants c2_w c2_w_moves (by decide) (by decide)
      c2_w_moves [] (by simp)⟩

/-- C3 (counterexample): `chains()` is not a cyclic generator, and on a
sequence that opens with an operator it does not even report the chain's
true range: on `[V, 0]` the only chain is `[0, 1)`, yet the iterator
yields `(1, 2)` once and then `none` forever instead of re-scanning. -/
theorem C3_chains_not_cyclic :
    IsChain c3_ex.expr 0 1 ∧
    chains_nth (chains_init c3_ex.expr) 0 = some (1, 2) ∧
    ¬ IsChain c3_ex.expr 1 2 ∧
    chains_nth (chains_init c3_ex.expr) 1 = none := by decide

/-- C3 (amended): for every NPE whose first token is an operand (as the
ballot invariant guarantees) and that has at least one chain, `chains()`
yields the half-open ranges of exactly the chains, in left-to-right order,
and then terminates: iterated past the last chain it yields `none` rather
than re-scanning. -/
theorem C3_chains_enumeration (npe : NPE) (h0 : rect_at npe.expr 0 = true)
    (hne : ∃ a b : Nat, IsChain npe.expr a b) :
    (∀ a b : Nat, ((a, b) ∈ chains_list npe.expr ↔ IsChain npe.expr a b)) ∧
    List.Pairwise (fun p q : Nat × Nat => p.1 < q.1) (chains_list npe.expr) ∧
    chains_list npe.expr ≠ [] ∧
    (∀ n : Nat, chains_nth (chains_init npe.expr) n = (chains_list npe.expr)[n]?) ∧
    (∀ n : Nat, (chains_list npe.expr).length ≤ n →
      chains_nth (chains_init npe.expr) n = none) := by
  obtain ⟨hmem, hpair⟩ := chains_list_spec h0
  refine ⟨hmem, hpair, ?_, fun n => chains_nth_init npe.expr n, ?_⟩
  · obtain ⟨a, b, hab⟩ := hne
    intro hnil
    have hm := (hmem a b).mpr hab
    rw [hnil] at hm
    exact List.not_mem_nil _ hm
  · intro n hn
    rw [chains_nth_init]
    exact List.getElem?_eq_none hn

theorem C3_chains_enumeration_witness :
    rect_at c4_ex.expr 0 = true ∧ IsChain c4_ex.expr 2 3 ∧
      ((∀ a b : Nat, ((a, b) ∈ chains_list c4_ex.expr ↔ IsChain c4_ex.expr a b)) ∧
       List.Pairwise (fun p q : Nat × Nat => p.1 < q.1) (chains_list c4_ex.expr) ∧
       chains_list c4_ex.expr ≠ [] ∧
       (∀ n : Nat, chains_nth (chains_init c4_ex.expr) n = (chains_list c4_ex.expr)[n]?) ∧
       (∀ n : Nat, (chains_list c4_ex.expr).length ≤ n →
         chains_nth (chains_init c4_ex.expr) n = none)) :=
  ⟨by decide, by decide,
    C3_chains_enumeration c4_ex (by decide) ⟨2, 3, by decide⟩⟩

/-- C4: the claim says perturb draws M1's rank uniformly over the valid
operand ranks `0 ≤ a < operand_count − 1`, so that every adjacent operand
pair can be selected.  The code instead passes `count_operators() - 1` as
the exclusive `gen_range` bound (src/lib.rs line 349).  On the one-cut NPE
`[0, 1, H]` that bound is 0 — `gen_range(0, 0)` panics — even though rank
0 is valid per the spec and `m1 0` succeeds; on larger NPEs the last valid
rank `operand_count − 2` is never drawn. -/
theorem C4_perturb_m1_rank_bug :
    perturb_m1_upper c4_ex = 0 ∧
    spec_m1_rank_ok c4_ex 0 ∧
    (c4_ex.m1 0).isSome = true ∧
    ¬ 0 < perturb_m1_upper c4_ex := by decide

/-- C5: on an NPE satisfying the skew/ballot property with operand count =
operator count + 1 (and operand indices within the rectangle table), the
stack evaluator underflows on no operator token, and after consuming the
whole sequence exactly one rectangle remains on the stack — the returned
result. -/
theorem C5_aabb_no_underflow (npe : NPE) (rects : List Rect)
    (hb : BallotProp npe.expr) (hc : Complete npe.expr)
    (hidx : operands_in_range npe.expr rects.length) :
    ∃ r : Rect, aabb_stack rects npe.expr [] = some [r] ∧
      npe.aabb rects = some r := by
  have hbal : ∀ k : Nat, k < npe.expr.length →
      (npe.expr.take (k + 1)).countP TreeItem.is_cut <
        (npe.expr.take (k + 1)).countP TreeItem.is_rect + ([] : List Rect).length := by
    intro k hk
    have h := hb k hk
    have hsum := count_split (npe.expr.take (k + 1))
    have hlen : (npe.expr.take (k + 1)).length = k + 1 := by
      rw [List.length_take]; omega
    simp only [List.length_nil]
    omega
  obtain ⟨st', hst', hlen⟩ :=
    aabb_stack_sound rects npe.expr [] hbal (operands_in_range_mem hidx)
  unfold Complete at hc
  simp only [List.length_nil] at hlen
  have hst1 : st'.length = 1 := by omega
  obtain ⟨r, hr⟩ : ∃ r, st' = [r] := by
    cases st' with
    | nil => simp at hst1
    | cons r t =>
      cases t with
      | nil => exact ⟨r, rfl⟩
      | cons r2 t2 => simp at hst1
  subst hr
  refine ⟨r, hst', ?_⟩
  unfold NPE.aabb
  rw [hst']
  rfl

theorem C5_aabb_no_underflow_witness :
    BallotProp c4_ex.expr ∧ Complete c4_ex.expr ∧
      operands_in_range c4_ex.expr c5_rects.length ∧
      (∃ r : Rect, aabb_stack c5_rects c4_ex.expr [] = some [r] ∧
        c4_ex.aabb c5_rects = some r) :=
  ⟨by decide, by decide, by decide,
    C5_aabb_no_underflow c4_ex c5_rects (by decide) (by decide) (by decide)⟩

/-- C6: on a valid NPE, `m3` (its shuffled candidate order made explicit)
either swaps exactly one adjacent operand/operator pair — two genuinely
different tokens, every other position untouched — or leaves the sequence
completely unchanged; after a swap the full sequence is normalized and
ballot-valid. -/
theorem C6_m3_one_swap_or_noop (npe : NPE) (ord : List Nat)
    (hv : Valid npe) (hord : List.Perm ord (m3_candidates npe.expr)) :
    ∃ npe', npe.m3_go ord = some npe' ∧
      (npe'.expr = npe.expr ∨
       ∃ i : Nat, i + 1 < npe.expr.length ∧
         npe'.expr[i]? = npe.expr[i + 1]? ∧
         npe'.expr[i + 1]? = npe.expr[i]? ∧
         (∀ j : Nat, j ≠ i → j ≠ i + 1 → npe'.expr[j]? = npe.expr[j]?) ∧
         npe.expr[i]? ≠ npe.expr[i + 1]? ∧
         Normalized npe'.expr ∧ BallotProp npe'.expr) := by
  obtain ⟨npe', h1, hval, hshape⟩ :=
    m3_go_spec hv ord (fun i hi => hord.mem_iff.mp hi)
  refine ⟨npe', h1, ?_⟩
  rcases hshape with he | ⟨i, hlen, h2, h3, h4, h5, _⟩
  · exact Or.inl (by rw [he])
  · exact Or.inr ⟨i, hlen, h2, h3, h4, h5, hval.2.1, hval.1⟩

theorem C6_m3_one_swap_or_noop_witness :
    Valid c4_ex ∧ List.Perm [1] (m3_candidates c4_ex.expr) ∧
      (∃ npe', c4_ex.m3_go [1] = some npe' ∧
        (npe'.expr = c4_ex.expr ∨
         ∃ i : Nat, i + 1 < c4_ex.expr.length ∧
           npe'.expr[i]? = c4_ex.expr[i + 1]? ∧
           npe'.expr[i + 1]? = c4_ex.expr[i]? ∧
           (∀ j : Nat, j ≠ i → j ≠ i + 1 → npe'.expr[j]? = c4_ex.expr[j]?) ∧
           c4_ex.expr[i]? ≠ c4_ex.expr[i + 1]? ∧
           Normalized npe'.expr ∧ BallotProp npe'.expr)) :=
  ⟨by decide, by decide,
    C6_m3_one_swap_or_noop c4_ex [1] (by decide) (by decide)⟩

/-- C7: after `NPE::new` on a nonempty sequence, the stored ballot is the
running prefix sum the spec prescribes — entry `i` holds the operand and
operator counts of positions `0..=i`, entry 0 being `(1,0)` for a leading
operand and `(0,1)` otherwise — and every successful single move (m1, m2
or m3) keeps the stored ballot equal to those prefix sums. -/
theorem C7_ballot_prefix_sums :
    (∀ expr : List TreeItem, expr ≠ [] → BallotCorrect (NPE.new expr)) ∧
    (∀ (expr : List TreeItem) (i : Nat), i < expr.length →
      (spec_ballot expr)[i]? =
        some ((expr.take (i + 1)).countP TreeItem.is_rect,
              (expr.take (i + 1)).countP TreeItem.is_cut)) ∧
    (∀ (npe npe' : NPE) (mv : Move), BallotCorrect npe →
      applyMove npe mv = some npe' → BallotCorrect npe') :=
  ⟨fun expr _ => ballot_correct_new expr,
   fun expr _ hi => spec_ballot_getElem? expr hi,
   fun _ _ _ hbc h => ballot_correct_move hbc h⟩

theorem C7_ballot_prefix_sums_witness :
    c4_ex.expr ≠ [] ∧ BallotCorrect (NPE.new c4_ex.expr) ∧
      (c4_ex.m1 0 = some ⟨[TreeItem.Rect 1, TreeItem.Rect 0,
        TreeItem.Cut Cut.Horizontal], c4_ex.ballot⟩ ∧
       BallotCorrect (⟨[TreeItem.Rect 1, TreeItem.Rect 0,
        TreeItem.Cut Cut.Horizontal], c4_ex.ballot⟩ : NPE)) :=
  ⟨by decide, C7_ballot_prefix_sums.1 c4_ex.expr (by decide),
   by decide,
   C7_ballot_prefix_sums.2.2 c4_ex _ (Move.m1 0) (by decide) (by decide)⟩

/-- C8: on a ballot-valid, normalized NPE, `m2` with a valid chain rank
leaves both token counts unchanged, flips every operator of the selected
chain to its opposite orientation, leaves every token outside the chain
untouched, and preserves strict alternation inside the chain. -/
theorem C8_m2_count_neutral (npe : NPE) (n a b : Nat)
    (hb : BallotProp npe.expr) (hn : Normalized npe.expr)
    (hchain : chains_nth (chains_init npe.expr) n = some (a, b)) :
    ∃ npe', npe.m2 n = some npe' ∧
      npe'.count_operands = npe.count_operands ∧
      npe'.count_operators = npe.count_operators ∧
      (∀ i : Nat, i < a ∨ b ≤ i → npe'.expr[i]? = npe.expr[i]?) ∧
      (∀ i : Nat, a ≤ i → i < b → ∃ c : Cut,
        npe.expr[i]? = some (TreeItem.Cut c) ∧
        npe'.expr[i]? = some (TreeItem.Cut c.opposite)) ∧
      (∀ i : Nat, a ≤ i → i + 1 < b → npe'.expr[i]? ≠ npe'.expr[i + 1]?) := by
  have hm := m2_eq hchain
  have hchain' := chain_of_chains_nth hb hchain
  have hkind := flip_range_kind npe.expr a b
  have hlen := flip_range_length npe.expr a b
  have hnorm := normalized_flip_chain hchain' hn
  refine ⟨_, hm, ?_, ?_, ?_, ?_, ?_⟩
  · exact countP_congr_of_kind _ _ _ hlen hkind
  · exact countP_congr_of_kind _ _ _ hlen (fun j => map_congr_is_cut (hkind j))
  · intro i hi
    exact flip_range_outside npe.expr hi
  · intro i hi1 hi2
    obtain ⟨c, hc⟩ := cut_at_exists (hchain'.2.2.1 i hi2 hi1)
    refine ⟨c, hc, ?_⟩
    rw [flip_range_inside npe.expr hi1 hi2, hc]
    rfl
  · intro i hi1 hi2
    have hib : i < npe.expr.length := by
      have hble := hchain'.2.1
      omega
    exact hnorm i (by rw [hlen]; exact hib)

theorem C8_m2_count_neutral_witness :
    BallotProp c2_w.expr ∧ Normalized c2_w.expr ∧
      chains_nth (chains_init c2_w.expr) 0 = some (2, 3) ∧
      (∃ npe', c2_w.m2 0 = some npe' ∧
        npe'.count_operands = c2_w.count_operands ∧
        npe'.count_operators = c2_w.count_operators ∧
        (∀ i : Nat, i < 2 ∨ 3 ≤ i → npe'.expr[i]? = c2_w.expr[i]?) ∧
        (∀ i : Nat, 2 ≤ i → i < 3 → ∃ c : Cut,
          c2_w.expr[i]? = some (TreeItem.Cut c) ∧
          npe'.expr[i]? = some (TreeItem.Cut c.opposite)) ∧
        (∀ i : Nat, 2 ≤ i → i + 1 < 3 → npe'.expr[i]? ≠ npe'.expr[i + 1]?)) :=
  ⟨by decide, by decide, by decide,
    C8_m2_count_neutral c2_w 0 2 3 (by decide) (by decide) (by decide)⟩

/-- C9: for every input NPE and every stage multiplier `k ≥ 1`, the inner
annealing stage terminates: with `n = operand_count × k` the loop breaks
as soon as the accepted-uphill count exceeds `n` or the iteration count
exceeds `2 × n`, so a stage executes at most `2·n + 1` iterations. -/
theorem C9_inner_stage_bound (npe : NPE) (k : Nat) (oracle : Nat → Bool)
    (_hk : 1 ≤ k) :
    inner_stage (npe.count_operands * k) oracle 0 0 ≤
      2 * (npe.count_operands * k) + 1 :=
  inner_stage_le (npe.count_operands * k) oracle
    (2 * (npe.count_operands * k) + 1) 0 0 (by omega) (by omega)

theorem C9_inner_stage_bound_witness :
    1 ≤ 1 ∧ inner_stage (c4_ex.count_operands * 1) (fun _ => false) 0 0 ≤
      2 * (c4_ex.count_operands * 1) + 1 :=
  ⟨by decide, C9_inner_stage_bound c4_ex 1 (fun _ => false) (by decide)⟩

/-- C10 (counterexample): an NPE can satisfy both invariants and end in an
operator while the ballot test at the last boundary succeeds, upon which
`is_swap_normalized` reads the inclusive window one past the final index —
an out-of-bounds slice (a panic, modelled as `none`); `m3` then dies on
that candidate.  On `[0, 1, 2, 3, H]` the test `2·ballot[4].1 < 3` holds
(2 < 3). -/
theorem C10_last_boundary_test_passes :
    BallotProp c10_ex.expr ∧ Normalized c10_ex.expr ∧
    cut_at c10_ex.expr (c10_ex.expr.length - 1) = true ∧
    (c10_ex.expr.length - 2) ∈ m3_candidates c10_ex.expr ∧
    c10_ex.satisfies_ballot (c10_ex.expr.length - 2) (c10_ex.expr.length - 1) =
      some true ∧
    c10_ex.is_swap_normalized (c10_ex.expr.length - 2) (c10_ex.expr.length - 1) =
      none ∧
    c10_ex.m3_go [c10_ex.expr.length - 2] = none := by decide

/-- C10 (amended): when additionally the operand count equals the operator
count plus one — as on every NPE arising from a slicing tree — the ballot
test `2 * ballot[last].1 < last - 1` always fails at the last boundary, so
the short-circuiting `&&` never reads the normalization window extending
one past the final index and the final operator token is never swapped. -/
theorem C10_last_boundary_safe (npe : NPE)
    (hbc : BallotCorrect npe) (hc : Complete npe.expr)
    (hlen : 2 ≤ npe.expr.length) :
    npe.is_swap_normalized (npe.expr.length - 2) (npe.expr.length - 1) =
      some false :=
  last_boundary_test_fails hbc hc hlen

theorem C10_last_boundary_safe_witness :
    BallotCorrect c4_ex ∧ Complete c4_ex.expr ∧ 2 ≤ c4_ex.expr.length ∧
      c4_ex.is_swap_normalized (c4_ex.expr.length - 2) (c4_ex.expr.length - 1) =
        some false :=
  ⟨by decide, by decide, by decide,
    C10_last_boundary_safe c4_ex (by decide) (by decide) (by decide)⟩

end Slicing
